import Mathlib

/-!
Verification of the parse-lib streaming parser-combinator library.

The definitions below are a shallow embedding of `src/index.js` (whose core
code is identical to the newest revision shipped in `src/unnamed/part_001`,
except where noted).  JavaScript strings are modelled as `List Char`; the
per-parse shared `cacheMap` (which JS shares by reference across every state
of one parse and mutates in place) is threaded explicitly as a separate
component next to the state; JS `null` results are `Option.none`; running out
of fuel (or a JS `TypeError` crash from touching `null.status`) is the outer
`Option.none` of the interpreter.  Parser identity (JS object reference, the
outer memo-table key) is an explicit `id : Nat` on every parser node.
-/

namespace ParseLib

/-- JS strings are sequences of code units. -/
abbrev Str := List Char

/-- The three-valued parser status (`ParserStateStatus` in the source).
`part` renders the source's PARTIAL status. -/
inductive Status
  | complete
  | part
  | error
deriving DecidableEq

/-- A JS `Error` value: `eoi` is true exactly for
`ParserUnexpectedEndOfInputError` instances (the `instanceof` test of the
source), `msg` is the message string. -/
structure PErr where
  eoi : Bool
  msg : String
deriving DecidableEq

/-- Parser result payloads: JS `null`, `undefined` (unfilled array slot),
strings, and arrays. -/
inductive RVal
  | nullv
  | undef
  | str (s : String)
  | arr (xs : List RVal)

/-- The parser state record minus the shared `cacheMap` (threaded separately,
see the file header). -/
structure Core where
  input : Str × Bool   -- (input.value, input.done)
  index : Nat
  status : Status
  result : RVal
  error : Option PErr

/-- value component of the input snapshot. -/
def Core.value (σ : Core) : Str := σ.input.1

/-- done component of the input snapshot. -/
def Core.done (σ : Core) : Bool := σ.input.2

/-- A returned JS value that is either a parser state or JS `null`
(`oneOf` with an empty parser list returns `null`). -/
abbrev JSVal := Option Core

/-- The packrat table: the two-level JS map `parser → (offset → state)`
flattened to association pairs keyed by `(parser identity, offset)`; storing
prepends, lookup takes the first hit, so prepending models `Map.set`'s
overwrite.  (The JS code stores a `null` produced by an empty `oneOf` as
well, but a `null` entry is invisible to the lookup guard
`cachedParserState != null`, so not storing it is observationally equal.) -/
abbrev CacheMap := List ((Nat × Nat) × Core)

/-- Lookup in the packrat table (first match = latest `Map.set`). -/
def mlookup : CacheMap → Nat × Nat → Option Core
  | [], _ => none
  | (k, v) :: rest, key => if k = key then some v else mlookup rest key

/-- Character-set element for `charFrom`: a plain string element (matched by
`===` against the one-character slice at the current index) or a two-element
range (the source sorts the two character codes before comparing). -/
inductive CSpec
  | ch (s : Str)
  | range (lo hi : Char)

/-- The deep syntax of parsers built from the library's primitives and
combinators.  Every node carries its JS object identity.  A `lazy` node
carries the identity of the parser its thunk returns, resolved in an
environment (this matches the newest source, where the thunk's result is
cached on the node, hence stable). -/
inductive P
  | literal (id : Nat) (text : Str)
  | anyChar (id : Nat)
  | charFrom (id : Nat) (set : List CSpec)
  | endOfInput (id : Nat)
  | sequenceOf (id : Nat) (ps : List P)
  | oneOf (id : Nat) (ps : List P)
  | zeroOrMore (id : Nat) (p : P)
  | oneOrMore (id : Nat) (p : P)
  | optional (id : Nat) (p : P)
  | followedBy (id : Nat) (p : P)
  | notFollowedBy (id : Nat) (p : P)
  | lazy (id : Nat) (target : Nat)

/-- The memo-table identity of a parser node. -/
def pid : P → Nat
  | .literal i _ => i
  | .anyChar i => i
  | .charFrom i _ => i
  | .endOfInput i => i
  | .sequenceOf i _ => i
  | .oneOf i _ => i
  | .zeroOrMore i _ => i
  | .oneOrMore i _ => i
  | .optional i _ => i
  | .followedBy i _ => i
  | .notFollowedBy i _ => i
  | .lazy i _ => i

/-- Environment resolving `lazy` targets (the parsers thunks return). -/
abbrev Env := List (Nat × P)

/-- Environment lookup. -/
def elookup : Env → Nat → Option P
  | [], _ => none
  | (k, q) :: rest, t => if k = t then some q else elookup rest t

/-- `error instanceof ParserUnexpectedEndOfInputError` on a state's error
field. -/
def isEOIerr : Option PErr → Bool
  | none => false
  | some e => e.eoi

/-- The repeated guard
`isErrorState(next) && next.error instanceof ParserUnexpectedEndOfInputError
&& !next.input.done` of the combinators. -/
def eoiNonFinal (σ : Core) : Bool :=
  decide (σ.status = .error) && isEOIerr σ.error && !σ.done

/-- `new Array(n)` with the first `acc.length` slots assigned: the remaining
slots read as `undefined`. -/
def fillArr (n : Nat) (acc : List RVal) : List RVal :=
  acc ++ List.replicate (n - acc.length) RVal.undef

/-- Transform function of `literal(text)` (src/index.js lines 187-223). -/
def literalFn (text : Str) (σ : Core) : Core :=
  let remainingInput := σ.value.drop σ.index
  if remainingInput.length = 0 then
    { σ with status := .error,
             error := some ⟨true, "Expected \"" ++ String.mk text ++
               "\", but got unexpected end of input"⟩ }
  else if ¬σ.done ∧ remainingInput.length < text.length ∧
      remainingInput.isPrefixOf text then
    { σ with index := σ.index + remainingInput.length, status := .part,
             result := .str (String.mk remainingInput) }
  else if ¬(text.isPrefixOf (σ.value.drop σ.index)) then
    { σ with status := .error,
             error := some ⟨false, "Expected \"" ++ String.mk text ++
               "\", but got \"" ++
               String.mk ((σ.value.drop σ.index).take text.length) ++ "\""⟩ }
  else
    { σ with index := σ.index + text.length, status := .complete,
             result := .str (String.mk text) }

/-- Transform function of `anyChar` (src/index.js lines 238-254). -/
def anyCharFn (σ : Core) : Core :=
  if σ.index ≥ σ.value.length then
    { σ with status := .error,
             error := some ⟨true,
               "Expected any character, but got unexpected end of input"⟩ }
  else
    { σ with status := .complete, index := σ.index + 1,
             result := .str (String.mk ((σ.value.drop σ.index).take 1)) }

/-- Does the character at the current index match one set element?
`value[index]` is the one-character slice; a range compares the sorted
character codes. -/
def cspecMatches (σ : Core) (c : CSpec) : Bool :=
  match c with
  | .ch s => decide (s = (σ.value.drop σ.index).take 1)
  | .range lo hi =>
      match (σ.value.drop σ.index).take 1 with
      | [c0] => decide (Nat.min lo.toNat hi.toNat ≤ c0.toNat) &&
                decide (c0.toNat ≤ Nat.max lo.toNat hi.toNat)
      | _ => false

/-- Transform function of `charFrom(set)` (src/index.js lines 270-313): the
source returns on the first matching element, and every match returns the
same state, so first-match and any-match coincide. -/
def charFromFn (set : List CSpec) (σ : Core) : Core :=
  if σ.index ≥ σ.value.length then
    { σ with status := .error,
             error := some ⟨true,
               "Expected character from set, but got unexpected end of input"⟩ }
  else if set.any (cspecMatches σ) then
    { σ with status := .complete, index := σ.index + 1,
             result := .str (String.mk ((σ.value.drop σ.index).take 1)) }
  else
    { σ with status := .error,
             error := some ⟨false, "Expected character from set, but got \"" ++
               String.mk ((σ.value.drop σ.index).take 1) ++ "\""⟩ }

/-- Transform function of `endOfInput` (src/index.js lines 332-354). -/
def endOfInputFn (σ : Core) : Core :=
  if σ.index < σ.value.length then
    { σ with status := .error,
             error := some ⟨false, "Expected end of input, but got \"" ++
               String.mk (σ.value.drop σ.index) ++ "\""⟩ }
  else if ¬σ.done then
    { σ with status := .error,
             error := some ⟨true,
               "Expected end of input, but got unexpected end of input"⟩ }
  else
    { σ with status := .complete, result := .nullv }

/-- Child loop of `sequenceOf(...parsers)` (src/index.js lines 377-403):
run the children left to right threading the state; a child's
EOI-over-non-final-input error yields a synthetic partial anchored at the
state before that child ran; any other child error is returned unchanged;
otherwise the child's result fills its slot.  `tr` is the memoizing
`Parser.transform` at one less fuel; a JS-`null` child makes
`isErrorState(null)` throw, modelled as the interpreter's `none`. -/
def seqGo (tr : P → Core → CacheMap → Option (JSVal × CacheMap)) :
    List P → Nat → List RVal → Core → CacheMap → Option (JSVal × CacheMap)
  | [], n, acc, cur, m =>
      some (some { cur with result := .arr (fillArr n acc) }, m)
  | q :: qs, n, acc, cur, m =>
      match tr q cur m with
      | none => none
      | some (none, _) => none
      | some (some nx, m') =>
        if eoiNonFinal nx then
          some (some { cur with
                         status := .part
                         result := .arr (fillArr n acc) }, m')
        else if nx.status = .error then
          some (some nx, m')
        else
          seqGo tr qs n (acc ++ [nx.result]) nx m'

/-- Alternative loop of `oneOf(...parsers)` (src/index.js lines 439-457):
every alternative is tried from the entry state; an
EOI-over-non-final-input error is returned immediately; other errors are
remembered (first one wins) while later alternatives are tried; with no
alternative left the first remembered error — JS `null` when the parser
list was empty — is returned. -/
def oneOfGo (tr : P → Core → CacheMap → Option (JSVal × CacheMap)) :
    List P → Core → CacheMap → Option Core → Option (JSVal × CacheMap)
  | [], _, m, firstErr => some (firstErr, m)
  | q :: qs, σ, m, firstErr =>
      match tr q σ m with
      | none => none
      | some (none, _) => none
      | some (some nx, m') =>
        if eoiNonFinal nx then
          some (some nx, m')
        else if nx.status = .error then
          oneOfGo tr qs σ m' (firstErr.orElse fun _ => some nx)
        else
          some (some nx, m')

/-- Repetition loop of `zeroOrMore(parser)` (src/index.js lines 492-519),
fuelled: the JS `while(true)` loop has no bound, so exhausting the fuel
(`none`) models its divergence. -/
def zomGo (tr : P → Core → CacheMap → Option (JSVal × CacheMap)) :
    Nat → P → Core → CacheMap → List RVal → Option (JSVal × CacheMap)
  | 0, _, _, _, _ => none
  | f + 1, q, cur, m, acc =>
      match tr q cur m with
      | none => none
      | some (none, _) => none
      | some (some nx, m') =>
        if eoiNonFinal nx then
          some (some { cur with status := .part, result := .arr acc }, m')
        else if nx.status = .error then
          some (some { cur with
                         status := if acc.isEmpty then .complete else cur.status
                         result := .arr acc }, m')
        else
          zomGo tr f q nx m' (acc ++ [nx.result])

/-- Repetition loop of `oneOrMore(parser)` (src/index.js lines 546-580):
identical to `zeroOrMore` except that zero collected matches at a genuine
child failure yield the empty-repetition error (which inherits the current
state's result field). -/
def oomGo (tr : P → Core → CacheMap → Option (JSVal × CacheMap)) :
    Nat → P → Core → CacheMap → List RVal → Option (JSVal × CacheMap)
  | 0, _, _, _, _ => none
  | f + 1, q, cur, m, acc =>
      match tr q cur m with
      | none => none
      | some (none, _) => none
      | some (some nx, m') =>
        if eoiNonFinal nx then
          some (some { cur with status := .part, result := .arr acc }, m')
        else if nx.status = .error then
          if acc.isEmpty then
            some (some { cur with
                           status := .error
                           error := some ⟨false,
                             "Expected at least one match, but got none"⟩ }, m')
          else
            some (some { cur with result := .arr acc }, m')
        else
          oomGo tr f q nx m' (acc ++ [nx.result])

/-- `optional(parser)` (src/index.js lines 612-628). -/
def optionalFn (tr : P → Core → CacheMap → Option (JSVal × CacheMap))
    (q : P) (σ : Core) (m : CacheMap) : Option (JSVal × CacheMap) :=
  match tr q σ m with
  | none => none
  | some (none, _) => none
  | some (some nx, m') =>
    if eoiNonFinal nx then
      some (some nx, m')
    else if nx.status = .error then
      some (some { σ with status := .complete, result := .nullv }, m')
    else
      some (some nx, m')

/-- `followedBy(parser)` (src/index.js lines 659-676): positive lookahead,
result at the entry offset. -/
def followedByFn (tr : P → Core → CacheMap → Option (JSVal × CacheMap))
    (q : P) (σ : Core) (m : CacheMap) : Option (JSVal × CacheMap) :=
  match tr q σ m with
  | none => none
  | some (none, _) => none
  | some (some nx, m') =>
    if nx.status = .error then
      some (some { σ with
                     status := .error
                     error := nx.error }, m')
    else
      some (some { σ with
                     status := nx.status
                     result := nx.result }, m')

/-- `notFollowedBy(parser)` (src/index.js lines 707-740): negative
lookahead, verdict at the entry offset. -/
def notFollowedByFn (tr : P → Core → CacheMap → Option (JSVal × CacheMap))
    (q : P) (σ : Core) (m : CacheMap) : Option (JSVal × CacheMap) :=
  match tr q σ m with
  | none => none
  | some (none, _) => none
  | some (some nx, m') =>
    if nx.status = .complete then
      some (some { σ with
                     status := .error
                     error := some ⟨false,
        "Expected to not be followed by given parser, but it did match"⟩ }, m')
    else if eoiNonFinal nx then
      some (some { σ with
                     status := .error
                     error := some ⟨true,
        "Expected to not be followed by given parser, but got unexpected end of input"⟩ }, m')
    else if nx.status = .part then
      some (some { σ with
                     status := .error
                     error := some ⟨true,
        "Expected to not be followed by given parser, but got partial match"⟩ }, m')
    else
      some (some { σ with status := .complete, result := .nullv }, m')

/-- One application of a parser's state-transform function (the closure
handed to `new Parser(...)`), dispatched on the parser's kind.  `tr` is the
memoizing `Parser.transform` for nested parsers, `f` fuels the unbounded
repetition loops, `env` resolves `lazy` targets (a missing target makes the
thunk produce `undefined`, whose `transform` call throws: `none`). -/
def stepF (env : Env) (tr : P → Core → CacheMap → Option (JSVal × CacheMap))
    (f : Nat) : P → Core → CacheMap → Option (JSVal × CacheMap)
  | .literal _ text, σ, m => some (some (literalFn text σ), m)
  | .anyChar _, σ, m => some (some (anyCharFn σ), m)
  | .charFrom _ set, σ, m => some (some (charFromFn set σ), m)
  | .endOfInput _, σ, m => some (some (endOfInputFn σ), m)
  | .sequenceOf _ ps, σ, m => seqGo tr ps ps.length [] σ m
  | .oneOf _ ps, σ, m => oneOfGo tr ps σ m none
  | .zeroOrMore _ q, σ, m => zomGo tr f q σ m []
  | .oneOrMore _ q, σ, m => oomGo tr f q σ m []
  | .optional _ q, σ, m => optionalFn tr q σ m
  | .followedBy _ q, σ, m => followedByFn tr q σ m
  | .notFollowedBy _ q, σ, m => notFollowedByFn tr q σ m
  | .lazy _ t, σ, m =>
      match elookup env t with
      | none => none
      | some q => tr q σ m

/-- Cache-reusability condition of `Parser.transform`
(src/index.js lines 90-94): complete entries always; partial entries on the
identical input snapshot; error entries unless the error is an
`UNEXPECTED_END_OF_INPUT` recorded against a non-final snapshot. -/
def reusable (e σ : Core) : Prop :=
  e.status = .complete ∨
  (e.status = .part ∧ e.value = σ.value ∧ e.done = σ.done) ∨
  (e.status = .error ∧ ¬(isEOIerr e.error = true ∧ e.done = false))

instance (e σ : Core) : Decidable (reusable e σ) := by
  unfold reusable; infer_instance

/-- `Parser.transform(parserState)` (src/index.js lines 80-105): error
states short-circuit; then the packrat table is consulted at
`(identity, index)`; a reusable entry is returned with its `input` (and in
JS its `cacheMap`) rewritten to the live call's; otherwise the transform
function runs and its produced state is stored under the original index
(a JS `null` result is stored too, but is invisible to later lookups). -/
def transform (env : Env) : Nat → P → Core → CacheMap →
    Option (JSVal × CacheMap)
  | 0, _, _, _ => none
  | f + 1, p, σ, m =>
    if σ.status = .error then some (some σ, m)
    else
      let run : Option (JSVal × CacheMap) :=
        match stepF env (transform env f) f p σ m with
        | none => none
        | some (none, m') => some (none, m')
        | some (some nx, m') =>
            some (some nx, ((pid p, σ.index), nx) :: m')
      match mlookup m (pid p, σ.index) with
      | some e =>
          if reusable e σ then some (some { e with input := σ.input }, m)
          else run
      | none => run

/-- The fresh state both drivers start from (src/index.js lines 110-117 and
126-133): offset 0, PARTIAL, null result, no error. -/
def initState (s : Str) (d : Bool) : Core :=
  { input := (s, d), index := 0, status := .part, result := .nullv,
    error := none }

/-- `Parser.parseString(input)` (src/index.js lines 107-121): one transform
over the whole string with `done = true` on a fresh cache; returns the
produced state (JS `null` included), `none` when the transform diverges. -/
def parseString (env : Env) (p : P) (f : Nat) (s : Str) : Option JSVal :=
  match transform env f p (initState s true) [] with
  | none => none
  | some (v, _) => some v

/-- Chunk loop of `Parser.parseIterable(input)` (src/index.js lines
139-170), returning the list of yielded states: each chunk is appended to
the accumulated buffer and the parser re-run from offset 0 on the grown
snapshot; EOI errors and non-progressing states are suppressed (their cache
mutations persist — the JS map is shared); a yielded non-PARTIAL state ends
the iteration; once the chunks are exhausted a final transform with
`done = true` is yielded unconditionally. -/
def parseIterableGo (env : Env) (p : P) (f : Nat) :
    List Str → Core → Str → CacheMap → Option (List JSVal)
  | [], cur, buf, m =>
      match transform env f p { cur with input := (buf, true), index := 0 } m with
      | none => none
      | some (v, _) => some [v]
  | c :: rest, cur, buf, m =>
      match transform env f p
          { cur with input := (buf ++ c, false), index := 0 } m with
      | none => none
      | some (none, _) => none
      | some (some nx, m') =>
        if nx.status = .error ∧ isEOIerr nx.error then
          parseIterableGo env p f rest cur (buf ++ c) m'
        else if cur.value = nx.value ∧ cur.index = nx.index ∧
            cur.status = nx.status then
          parseIterableGo env p f rest cur (buf ++ c) m'
        else if nx.status = .part then
          match parseIterableGo env p f rest nx (buf ++ c) m' with
          | none => none
          | some out => some (some nx :: out)
        else
          some [some nx]

/-- `Parser.parseIterable(chunks)` from the fresh initial state, empty
buffer and empty cache; yields the emitted states. -/
def parseIterable (env : Env) (p : P) (f : Nat) (chunks : List Str) :
    Option (List JSVal) :=
  parseIterableGo env p f chunks (initState [] false) [] []

/-!
## The lazy node's thunk cache

`lazy(parserThunk)` in the newest source (src/unnamed/part_001 lines
957-963, the revision with the module's export list, whose behaviour the
test suite pins down with `toHaveBeenCalledOnce`) keeps a `cachedParser`
variable in the closure: `const parser = cachedParser ??= parserThunk()`.
The cache lives on the lazy node itself, so it persists across parses.  We
model the node state explicitly; the thunk takes its call count so that a
thunk producing a different parser on every call is expressible. -/

/-- Mutable state carried by one lazy node: the cached parser and how often
the thunk has run. -/
structure LazyState where
  cachedParser : Option P
  calls : Nat

/-- One invocation of the lazy node's transform, as far as thunk handling
goes: `cachedParser ??= parserThunk()`. -/
def lazyForce (thunk : Nat → P) (st : LazyState) : P × LazyState :=
  match st.cachedParser with
  | some p => (p, st)
  | none => (thunk st.calls, ⟨some (thunk st.calls), st.calls + 1⟩)

/-- `n` successive invocations of the lazy node (across any number of
parses); returns the parser each invocation used. -/
def lazyRun (thunk : Nat → P) : Nat → LazyState → List P × LazyState
  | 0, st => ([], st)
  | n + 1, st =>
      let fs := lazyForce thunk st
      let rest := lazyRun thunk n fs.2
      (fs.1 :: rest.1, rest.2)

/-!
## Specification-side predicates
-/

/-- Well-formedness of a single state as far as it survives the code (the
spec's additional clause that an error state's `result` is null does not): a
bounded index and error-field/status agreement. -/
def WFState (σ : Core) : Prop :=
  σ.index ≤ σ.value.length ∧ (σ.status = .error ↔ σ.error ≠ none)

/-- Well-formedness of the packrat table against the current input length
(entries may come from shorter snapshots of the same stream, so their
indices are bounded by any later length as well). -/
def WFMap (m : CacheMap) (n : Nat) : Prop :=
  ∀ k e, (k, e) ∈ m → e.index ≤ n ∧ (e.status = .error ↔ e.error ≠ none)

/-- Table invariant for whole-string parses: a PARTIAL entry can only stem
from a non-final snapshot. -/
def NoPartMap (m : CacheMap) : Prop :=
  ∀ k e, (k, e) ∈ m → e.status = .part → e.done = false

/-- Every emission of the streaming driver except possibly the last is a
state with PARTIAL status. -/
def allButLastPart : List JSVal → Prop
  | [] => True
  | [_] => True
  | v :: rest => (∃ σ, v = some σ ∧ σ.status = .part) ∧ allButLastPart rest

/-- A terminal emission in the sense of the spec: COMPLETE, or an ERROR that
is not an `UNEXPECTED_END_OF_INPUT`. -/
def isTerminalE (v : JSVal) : Bool :=
  match v with
  | some σ => decide (σ.status = .complete) ||
      (decide (σ.status = .error) && !isEOIerr σ.error)
  | none => false

/-- The parsers `qs` all return COMPLETE when run left to right from
`(σ, m)`, ending in `(σ', m')` with the listed results. -/
def CompletesThrough (tr : P → Core → CacheMap → Option (JSVal × CacheMap)) :
    List P → Core → CacheMap → Core → CacheMap → List RVal → Prop
  | [], σ, m, σ', m', rs => σ' = σ ∧ m' = m ∧ rs = []
  | q :: qs, σ, m, σ', m', rs =>
      ∃ σ1 m1 rs1, tr q σ m = some (some σ1, m1) ∧ σ1.status = .complete ∧
        CompletesThrough tr qs σ1 m1 σ' m' rs1 ∧ rs = σ1.result :: rs1

mutual

/-- Structural condition flagged by the source's own TODO list: every
`sequenceOf` node has at least one child. -/
def seqNE : P → Prop
  | .sequenceOf _ ps => ps ≠ [] ∧ seqNEs ps
  | .oneOf _ ps => seqNEs ps
  | .zeroOrMore _ q => seqNE q
  | .oneOrMore _ q => seqNE q
  | .optional _ q => seqNE q
  | .followedBy _ q => seqNE q
  | .notFollowedBy _ q => seqNE q
  | _ => True

/-- `seqNE` over a child list. -/
def seqNEs : List P → Prop
  | [] => True
  | q :: qs => seqNE q ∧ seqNEs qs

end

/-- `∀ kq ∈ env, seqNE kq.2`: all parsers reachable through `lazy` satisfy
the non-empty-`sequenceOf` condition as well. -/
def envNE (env : Env) : Prop := ∀ kq, kq ∈ env → seqNE kq.2

/-!
## Concrete parsers for the counterexamples and witnesses
-/

/-- `sequenceOf(followedBy(literal("abc")), literal("ab"))`. -/
def cexSeqFb : P :=
  .sequenceOf 0 [.followedBy 1 (.literal 2 ['a', 'b', 'c']), .literal 3 ['a', 'b']]

/-- `oneOf(literal("abc"), literal("x"))`. -/
def cexOneOf : P := .oneOf 0 [.literal 1 ['a', 'b', 'c'], .literal 2 ['x']]

/-- `sequenceOf(literal("a"), literal("x"))`. -/
def cexSeqErr : P := .sequenceOf 0 [.literal 1 ['a'], .literal 2 ['x']]

/-- `sequenceOf()` — no children, as the source's TODO notes is never
rejected. -/
def cexSeqEmpty : P := .sequenceOf 0 []

/-- `zeroOrMore(optional(literal("a")))` — the inner parser succeeds without
advancing whenever `literal("a")` fails. -/
def cexZomOpt : P := .zeroOrMore 0 (.optional 1 (.literal 2 ['a']))

/-- Observable projection of a driver result: status, index, result and
whether an error is present (message text aside). -/
def obsView (r : Option JSVal) : Option (Option (Status × Nat × RVal × Bool)) :=
  r.map (Option.map fun σ => (σ.status, σ.index, σ.result, σ.error.isSome))

/-- Observable projection of an emission list: status and index of each
emitted state. -/
def obsList (r : Option (List JSVal)) : Option (List (Option (Status × Nat))) :=
  r.map (List.map (Option.map fun σ => (σ.status, σ.index)))

/-- `optional(literal("a"))`, the inner parser of `cexZomOpt`. -/
def divOpt : P := .optional 1 (.literal 2 ['a'])

/-- The entry state of `parseString("")`. -/
def divSt : Core := initState [] true

/-- What `literal("a")` produces on the empty final snapshot: an
`UNEXPECTED_END_OF_INPUT` error. -/
def divErrSt : Core :=
  { divSt with status := .error,
               error := some ⟨true, "Expected \"a\", but got unexpected end of input"⟩ }

/-- What `optional(literal("a"))` produces there: COMPLETE, null result, no
advance — the zero-width success. -/
def divOkSt : Core := { divSt with status := .complete }

/-- The packrat table after the first `zeroOrMore` iteration on that input. -/
def divMap : CacheMap := [((1, 0), divOkSt), ((2, 0), divErrSt)]

/-- The miss path of `Parser.transform`: run the state-transform function
and store its produced state under the original index (src/index.js lines
102-104); a JS-`null` product is returned unstored. -/
def runAndStore (env : Env) (f : Nat) (p : P) (σ : Core) (m : CacheMap) :
    Option (JSVal × CacheMap) :=
  match stepF env (transform env f) f p σ m with
  | none => none
  | some (none, m') => some (none, m')
  | some (some nx, m') => some (some nx, ((pid p, σ.index), nx) :: m')

/-- Observable projection of an emission list including results. -/
def obsListR (r : Option (List JSVal)) :
    Option (List (Option (Status × Nat × RVal))) :=
  r.map (List.map (Option.map fun σ => (σ.status, σ.index, σ.result)))

/-- Entry state for the `sequenceOf` witnesses: two characters arrived,
stream still open. -/
def wSeqSt : Core := initState ['a', 'b'] false

/-- `literal("ab")`'s COMPLETE state there. -/
def wSeqK : Core := { wSeqSt with index := 2, status := .complete, result := .str "ab" }

/-- Table after that first child ran (child identity 1, offset 0). -/
def wSeqMk : CacheMap := [((1, 0), wSeqK)]

/-- `literal("cd")`'s EOI error at offset 2 of the open snapshot. -/
def wSeqE : Core :=
  { wSeqK with status := .error,
               error := some ⟨true, "Expected \"cd\", but got unexpected end of input"⟩ }

/-- Table after the failing second child (identity 2, offset 2). -/
def wSeqMe : CacheMap := ((2, 2), wSeqE) :: wSeqMk

/-- Entry state over the closed three-character input for the
genuine-failure witness. -/
def wSeqSt3 : Core := initState ['a', 'b', 'q'] true

/-- `literal("ab")`'s COMPLETE state there. -/
def wSeqK3 : Core := { wSeqSt3 with index := 2, status := .complete, result := .str "ab" }

/-- Table after that child. -/
def wSeqMk3 : CacheMap := [((1, 0), wSeqK3)]

/-- `literal("xy")`'s mismatch at offset 2. -/
def wSeqE3 : Core :=
  { wSeqK3 with status := .error,
                error := some ⟨false, "Expected \"xy\", but got \"q\""⟩ }

/-- Table after the mismatch. -/
def wSeqMe3 : CacheMap := ((2, 2), wSeqE3) :: wSeqMk3

/-!
## Input-snapshot preservation

A single `Parser.transform` never changes the `input` field: every state it
can return is a record update of a state carrying the caller's snapshot
(the cache-reuse branch rewrites `input` explicitly).
-/

/-- `tr` preserves the input snapshot. -/
def TrInp (tr : P → Core → CacheMap → Option (JSVal × CacheMap)) : Prop :=
  ∀ q σ m nx m', tr q σ m = some (some nx, m') → nx.input = σ.input

theorem literalFn_input (t : Str) (σ : Core) : (literalFn t σ).input = σ.input := by
  simp only [literalFn]
  split_ifs <;> rfl

theorem anyCharFn_input (σ : Core) : (anyCharFn σ).input = σ.input := by
  simp only [anyCharFn]
  split_ifs <;> rfl

theorem charFromFn_input (s : List CSpec) (σ : Core) :
    (charFromFn s σ).input = σ.input := by
  simp only [charFromFn]
  split_ifs <;> rfl

theorem endOfInputFn_input (σ : Core) : (endOfInputFn σ).input = σ.input := by
  simp only [endOfInputFn]
  split_ifs <;> rfl

theorem seqGo_input (tr : P → Core → CacheMap → Option (JSVal × CacheMap))
    (hinp : TrInp tr) (ps : List P) :
    ∀ n acc cur m nx m', seqGo tr ps n acc cur m = some (some nx, m') →
      nx.input = cur.input := by
  induction ps with
  | nil =>
      intro n acc cur m nx m' h
      simp only [seqGo, Option.some.injEq, Prod.mk.injEq] at h
      obtain ⟨h1, _⟩ := h
      cases h1
      rfl
  | cons q qs ih =>
      intro n acc cur m nx m' h
      simp only [seqGo] at h
      cases htr : tr q cur m with
      | none => rw [htr] at h; exact absurd h (by simp)
      | some vm =>
          obtain ⟨v, m1⟩ := vm
          cases v with
          | none => rw [htr] at h; exact absurd h (by simp)
          | some nx1 =>
              rw [htr] at h
              simp only at h
              split at h
              · simp only [Option.some.injEq, Prod.mk.injEq] at h
                obtain ⟨h1, _⟩ := h
                cases h1
                rfl
              · split at h
                · simp only [Option.some.injEq, Prod.mk.injEq] at h
                  obtain ⟨h1, _⟩ := h
                  cases h1
                  exact hinp q cur m nx m1 htr
                · exact (ih _ _ _ _ _ _ h).trans (hinp q cur m nx1 m1 htr)

theorem oneOfGo_input (tr : P → Core → CacheMap → Option (JSVal × CacheMap))
    (hinp : TrInp tr) (qs : List P) :
    ∀ σ m fe nx m', (∀ e, fe = some e → e.input = σ.input) →
      oneOfGo tr qs σ m fe = some (some nx, m') → nx.input = σ.input := by
  induction qs with
  | nil =>
      intro σ m fe nx m' hfe h
      simp only [oneOfGo, Option.some.injEq, Prod.mk.injEq] at h
      exact hfe nx h.1
  | cons q qs ih =>
      intro σ m fe nx m' hfe h
      simp only [oneOfGo] at h
      cases htr : tr q σ m with
      | none => rw [htr] at h; exact absurd h (by simp)
      | some vm =>
          obtain ⟨v, m1⟩ := vm
          cases v with
          | none => rw [htr] at h; exact absurd h (by simp)
          | some nx1 =>
              rw [htr] at h
              simp only at h
              split at h
              · simp only [Option.some.injEq, Prod.mk.injEq] at h
                cases h.1
                exact hinp q σ m nx m1 htr
              · split at h
                · refine ih σ m1 _ nx m' ?_ h
                  intro e he
                  cases hfe0 : fe with
                  | some e0 =>
                      rw [hfe0] at he
                      simp only [Option.orElse] at he
                      injection he with hee
                      exact hee ▸ hfe e0 hfe0
                  | none =>
                      rw [hfe0] at he
                      simp only [Option.orElse] at he
                      cases he
                      exact hinp q σ m nx1 m1 htr
                · simp only [Option.some.injEq, Prod.mk.injEq] at h
                  cases h.1
                  exact hinp q σ m nx m1 htr

theorem zomGo_input (tr : P → Core → CacheMap → Option (JSVal × CacheMap))
    (hinp : TrInp tr) (f : Nat) :
    ∀ q cur m acc nx m', zomGo tr f q cur m acc = some (some nx, m') →
      nx.input = cur.input := by
  induction f with
  | zero => intro q cur m acc nx m' h; exact absurd h (by simp [zomGo])
  | succ f ih =>
      intro q cur m acc nx m' h
      simp only [zomGo] at h
      cases htr : tr q cur m with
      | none => rw [htr] at h; exact absurd h (by simp)
      | some vm =>
          obtain ⟨v, m1⟩ := vm
          cases v with
          | none => rw [htr] at h; exact absurd h (by simp)
          | some nx1 =>
              rw [htr] at h
              simp only at h
              split at h
              · simp only [Option.some.injEq, Prod.mk.injEq] at h
                cases h.1
                rfl
              · split at h
                · simp only [Option.some.injEq, Prod.mk.injEq] at h
                  cases h.1
                  rfl
                · exact (ih q nx1 m1 _ nx m' h).trans (hinp q cur m nx1 m1 htr)

theorem oomGo_input (tr : P → Core → CacheMap → Option (JSVal × CacheMap))
    (hinp : TrInp tr) (f : Nat) :
    ∀ q cur m acc nx m', oomGo tr f q cur m acc = some (some nx, m') →
      nx.input = cur.input := by
  induction f with
  | zero => intro q cur m acc nx m' h; exact absurd h (by simp [oomGo])
  | succ f ih =>
      intro q cur m acc nx m' h
      simp only [oomGo] at h
      cases htr : tr q cur m with
      | none => rw [htr] at h; exact absurd h (by simp)
      | some vm =>
          obtain ⟨v, m1⟩ := vm
          cases v with
          | none => rw [htr] at h; exact absurd h (by simp)
          | some nx1 =>
              rw [htr] at h
              simp only at h
              split at h
              · simp only [Option.some.injEq, Prod.mk.injEq] at h
                cases h.1
                rfl
              · split at h
                · split at h
                  · simp only [Option.some.injEq, Prod.mk.injEq] at h
                    cases h.1
                    rfl
                  · simp only [Option.some.injEq, Prod.mk.injEq] at h
                    cases h.1
                    rfl
                · exact (ih q nx1 m1 _ nx m' h).trans (hinp q cur m nx1 m1 htr)

theorem optionalFn_input (tr : P → Core → CacheMap → Option (JSVal × CacheMap))
    (hinp : TrInp tr) (q : P) (σ : Core) (m : CacheMap) (nx : Core)
    (m' : CacheMap) (h : optionalFn tr q σ m = some (some nx, m')) :
    nx.input = σ.input := by
  simp only [optionalFn] at h
  cases htr : tr q σ m with
  | none => rw [htr] at h; exact absurd h (by simp)
  | some vm =>
      obtain ⟨v, m1⟩ := vm
      cases v with
      | none => rw [htr] at h; exact absurd h (by simp)
      | some nx1 =>
          rw [htr] at h
          simp only at h
          split at h
          · simp only [Option.some.injEq, Prod.mk.injEq] at h
            cases h.1
            exact hinp q σ m nx m1 htr
          · split at h
            · simp only [Option.some.injEq, Prod.mk.injEq] at h
              cases h.1
              rfl
            · simp only [Option.some.injEq, Prod.mk.injEq] at h
              cases h.1
              exact hinp q σ m nx m1 htr

theorem followedByFn_input (tr : P → Core → CacheMap → Option (JSVal × CacheMap))
    (q : P) (σ : Core) (m : CacheMap) (nx : Core)
    (m' : CacheMap) (h : followedByFn tr q σ m = some (some nx, m')) :
    nx.input = σ.input := by
  simp only [followedByFn] at h
  cases htr : tr q σ m with
  | none => rw [htr] at h; exact absurd h (by simp)
  | some vm =>
      obtain ⟨v, m1⟩ := vm
      cases v with
      | none => rw [htr] at h; exact absurd h (by simp)
      | some nx1 =>
          rw [htr] at h
          simp only at h
          split at h
          · simp only [Option.some.injEq, Prod.mk.injEq] at h
            cases h.1
            rfl
          · simp only [Option.some.injEq, Prod.mk.injEq] at h
            cases h.1
            rfl

theorem notFollowedByFn_input (tr : P → Core → CacheMap → Option (JSVal × CacheMap))
    (q : P) (σ : Core) (m : CacheMap) (nx : Core)
    (m' : CacheMap) (h : notFollowedByFn tr q σ m = some (some nx, m')) :
    nx.input = σ.input := by
  simp only [notFollowedByFn] at h
  cases htr : tr q σ m with
  | none => rw [htr] at h; exact absurd h (by simp)
  | some vm =>
      obtain ⟨v, m1⟩ := vm
      cases v with
      | none => rw [htr] at h; exact absurd h (by simp)
      | some nx1 =>
          rw [htr] at h
          simp only at h
          split at h
          · simp only [Option.some.injEq, Prod.mk.injEq] at h
            cases h.1
            rfl
          · split at h
            · simp only [Option.some.injEq, Prod.mk.injEq] at h
              cases h.1
              rfl
            · split at h
              · simp only [Option.some.injEq, Prod.mk.injEq] at h
                cases h.1
                rfl
              · simp only [Option.some.injEq, Prod.mk.injEq] at h
                cases h.1
                rfl

theorem stepF_input (env : Env) (tr : P → Core → CacheMap → Option (JSVal × CacheMap))
    (hinp : TrInp tr) (f : Nat) (q : P) (σ : Core) (m : CacheMap)
    (nx : Core) (m' : CacheMap) (h : stepF env tr f q σ m = some (some nx, m')) :
    nx.input = σ.input := by
  cases q with
  | literal i t =>
      simp only [stepF, Option.some.injEq, Prod.mk.injEq] at h
      cases h.1
      exact literalFn_input t σ
  | anyChar i =>
      simp only [stepF, Option.some.injEq, Prod.mk.injEq] at h
      cases h.1
      exact anyCharFn_input σ
  | charFrom i s =>
      simp only [stepF, Option.some.injEq, Prod.mk.injEq] at h
      cases h.1
      exact charFromFn_input s σ
  | endOfInput i =>
      simp only [stepF, Option.some.injEq, Prod.mk.injEq] at h
      cases h.1
      exact endOfInputFn_input σ
  | sequenceOf i ps =>
      simp only [stepF] at h
      exact seqGo_input tr hinp ps _ _ σ m nx m' h
  | oneOf i ps =>
      simp only [stepF] at h
      exact oneOfGo_input tr hinp ps σ m none nx m' (by intro e he; cases he) h
  | zeroOrMore i p =>
      simp only [stepF] at h
      exact zomGo_input tr hinp f p σ m [] nx m' h
  | oneOrMore i p =>
      simp only [stepF] at h
      exact oomGo_input tr hinp f p σ m [] nx m' h
  | optional i p =>
      simp only [stepF] at h
      exact optionalFn_input tr hinp p σ m nx m' h
  | followedBy i p =>
      simp only [stepF] at h
      exact followedByFn_input tr p σ m nx m' h
  | notFollowedBy i p =>
      simp only [stepF] at h
      exact notFollowedByFn_input tr p σ m nx m' h
  | lazy i t =>
      simp only [stepF] at h
      cases he : elookup env t with
      | none => rw [he] at h; exact absurd h (by simp)
      | some p => rw [he] at h; exact hinp p σ m nx m' h

theorem transform_input (env : Env) : ∀ f, TrInp (transform env f) := by
  intro f
  induction f with
  | zero => intro q σ m nx m' h; exact absurd h (by simp [transform])
  | succ f ih =>
      intro q σ m nx m' h
      simp only [transform] at h
      split at h
      · simp only [Option.some.injEq, Prod.mk.injEq] at h
        cases h.1
        rfl
      · split at h
        · split at h
          · simp only [Option.some.injEq, Prod.mk.injEq] at h
            cases h.1
            rfl
          · cases hst : stepF env (transform env f) f q σ m with
            | none => rw [hst] at h; exact absurd h (by simp)
            | some vm =>
                obtain ⟨v, m1⟩ := vm
                cases v with
                | none => rw [hst] at h; exact absurd h (by simp)
                | some nx1 =>
                    rw [hst] at h
                    simp only [Option.some.injEq, Prod.mk.injEq] at h
                    cases h.1
                    exact stepF_input env (transform env f) ih f q σ m nx m1 hst
        · cases hst : stepF env (transform env f) f q σ m with
          | none => rw [hst] at h; exact absurd h (by simp)
          | some vm =>
              obtain ⟨v, m1⟩ := vm
              cases v with
              | none => rw [hst] at h; exact absurd h (by simp)
              | some nx1 =>
                  rw [hst] at h
                  simp only [Option.some.injEq, Prod.mk.injEq] at h
                  cases h.1
                  exact stepF_input env (transform env f) ih f q σ m nx m1 hst

/-!
## Well-formedness of produced states (amended invariant of C5)
-/

/-- `tr` sends well-formed states over a well-formed table to well-formed
states over a well-formed table (`n` is the fixed length of the current
input value). -/
def TrWF (tr : P → Core → CacheMap → Option (JSVal × CacheMap)) (n : Nat) : Prop :=
  ∀ q σ m nx m', σ.value.length = n → WFState σ → WFMap m n →
    tr q σ m = some (some nx, m') → WFState nx ∧ WFMap m' n

theorem literalFn_wf (t : Str) (σ : Core) (hσ : WFState σ) (he : σ.error = none) :
    WFState (literalFn t σ) := by
  obtain ⟨hidx, _⟩ := hσ
  simp only [literalFn]
  split_ifs with h1 h2 h3
  · exact ⟨hidx, by simp [WFState]⟩
  · refine ⟨?_, by simp [WFState, Core.value, he]⟩
    show σ.index + (σ.value.drop σ.index).length ≤ σ.value.length
    rw [List.length_drop]
    omega
  · refine ⟨?_, by simp [WFState, Core.value, he]⟩
    show σ.index + t.length ≤ σ.value.length
    have hp := (List.isPrefixOf_iff_prefix.mp h3).length_le
    rw [List.length_drop] at hp
    omega
  · exact ⟨hidx, by simp [WFState]⟩

theorem anyCharFn_wf (σ : Core) (hσ : WFState σ) (he : σ.error = none) :
    WFState (anyCharFn σ) := by
  obtain ⟨hidx, _⟩ := hσ
  simp only [anyCharFn]
  split_ifs with h1
  · exact ⟨hidx, by simp [WFState]⟩
  · refine ⟨?_, by simp [WFState, Core.value, he]⟩
    show σ.index + 1 ≤ σ.value.length
    omega

theorem charFromFn_wf (s : List CSpec) (σ : Core) (hσ : WFState σ)
    (he : σ.error = none) : WFState (charFromFn s σ) := by
  obtain ⟨hidx, _⟩ := hσ
  simp only [charFromFn]
  split_ifs with h1 h2
  · exact ⟨hidx, by simp [WFState]⟩
  · refine ⟨?_, by simp [WFState, Core.value, he]⟩
    show σ.index + 1 ≤ σ.value.length
    omega
  · exact ⟨hidx, by simp [WFState]⟩

theorem endOfInputFn_wf (σ : Core) (hσ : WFState σ) (he : σ.error = none) :
    WFState (endOfInputFn σ) := by
  obtain ⟨hidx, _⟩ := hσ
  simp only [endOfInputFn]
  split_ifs with h1 h2
  · exact ⟨hidx, by simp [WFState]⟩
  · exact ⟨hidx, by simp [WFState, Core.value, he]⟩
  · exact ⟨hidx, by simp [WFState]⟩

theorem wfErrNone (σ : Core) (h : WFState σ) (hs : σ.status ≠ .error) :
    σ.error = none := by
  cases he : σ.error with
  | none => rfl
  | some e => exact absurd (h.2.mpr (by simp [he])) hs

theorem mlookup_mem (m : CacheMap) (k : Nat × Nat) (e : Core)
    (h : mlookup m k = some e) : (k, e) ∈ m := by
  induction m with
  | nil => simp [mlookup] at h
  | cons kv rest ih =>
      obtain ⟨k0, v0⟩ := kv
      by_cases hk : k0 = k
      · simp only [mlookup] at h
        rw [if_pos hk] at h
        injection h with h1
        subst h1
        subst hk
        exact List.mem_cons_self _ _
      · simp only [mlookup] at h
        rw [if_neg hk] at h
        exact List.mem_cons_of_mem _ (ih h)

theorem wfMapCons (m : CacheMap) (n : Nat) (k : Nat × Nat) (e : Core)
    (hm : WFMap m n) (h1 : e.index ≤ n) (h2 : e.status = .error ↔ e.error ≠ none) :
    WFMap ((k, e) :: m) n := by
  intro k' e' hmem
  rcases List.mem_cons.mp hmem with hc | hc
  · cases hc
    exact ⟨h1, h2⟩
  · exact hm k' e' hc

theorem seqGo_wf (tr : P → Core → CacheMap → Option (JSVal × CacheMap))
    (n : Nat) (hinp : TrInp tr) (hwf : TrWF tr n) (ps : List P) :
    ∀ nn acc cur m nx m', cur.value.length = n → cur.status ≠ .error →
      WFState cur → WFMap m n →
      seqGo tr ps nn acc cur m = some (some nx, m') → WFState nx ∧ WFMap m' n := by
  induction ps with
  | nil =>
      intro nn acc cur m nx m' hlen hne hcur hm h
      simp only [seqGo, Option.some.injEq, Prod.mk.injEq] at h
      obtain ⟨h1, h2⟩ := h
      cases h1
      cases h2
      exact ⟨⟨hcur.1, hcur.2⟩, hm⟩
  | cons q qs ih =>
      intro nn acc cur m nx m' hlen hne hcur hm h
      simp only [seqGo] at h
      cases htr : tr q cur m with
      | none => rw [htr] at h; exact absurd h (by simp)
      | some vm =>
          obtain ⟨v, m1⟩ := vm
          cases v with
          | none => rw [htr] at h; exact absurd h (by simp)
          | some nx1 =>
              rw [htr] at h
              simp only at h
              obtain ⟨hwf1, hwfm1⟩ := hwf q cur m nx1 m1 hlen hcur hm htr
              split at h
              · simp only [Option.some.injEq, Prod.mk.injEq] at h
                obtain ⟨h1, h2⟩ := h
                cases h1
                cases h2
                exact ⟨⟨hcur.1, by simp [WFState, wfErrNone cur hcur hne]⟩, hwfm1⟩
              · split at h
                · simp only [Option.some.injEq, Prod.mk.injEq] at h
                  obtain ⟨h1, h2⟩ := h
                  cases h1
                  cases h2
                  exact ⟨hwf1, hwfm1⟩
                · rename_i hnerr
                  have hlen1 : nx1.value.length = n := by
                    have := hinp q cur m nx1 m1 htr
                    unfold Core.value
                    rw [this]
                    exact hlen
                  exact ih _ _ nx1 m1 nx m' hlen1 hnerr hwf1 hwfm1 h

theorem oneOfGo_wf (tr : P → Core → CacheMap → Option (JSVal × CacheMap))
    (n : Nat) (hwf : TrWF tr n) (qs : List P) :
    ∀ σ m fe nx m', σ.value.length = n → WFState σ → WFMap m n →
      (∀ e, fe = some e → WFState e) →
      oneOfGo tr qs σ m fe = some (some nx, m') → WFState nx ∧ WFMap m' n := by
  induction qs with
  | nil =>
      intro σ m fe nx m' hlen hσ hm hfe h
      simp only [oneOfGo, Option.some.injEq, Prod.mk.injEq] at h
      obtain ⟨h1, h2⟩ := h
      cases h2
      exact ⟨hfe nx h1, hm⟩
  | cons q qs ih =>
      intro σ m fe nx m' hlen hσ hm hfe h
      simp only [oneOfGo] at h
      cases htr : tr q σ m with
      | none => rw [htr] at h; exact absurd h (by simp)
      | some vm =>
          obtain ⟨v, m1⟩ := vm
          cases v with
          | none => rw [htr] at h; exact absurd h (by simp)
          | some nx1 =>
              rw [htr] at h
              simp only at h
              obtain ⟨hwf1, hwfm1⟩ := hwf q σ m nx1 m1 hlen hσ hm htr
              split at h
              · simp only [Option.some.injEq, Prod.mk.injEq] at h
                obtain ⟨h1, h2⟩ := h
                cases h1
                cases h2
                exact ⟨hwf1, hwfm1⟩
              · split at h
                · refine ih σ m1 _ nx m' hlen hσ hwfm1 ?_ h
                  intro e he
                  cases hfe0 : fe with
                  | some e0 =>
                      rw [hfe0] at he
                      simp only [Option.orElse] at he
                      injection he with hee
                      exact hee ▸ hfe e0 hfe0
                  | none =>
                      rw [hfe0] at he
                      simp only [Option.orElse] at he
                      injection he with hee
                      exact hee ▸ hwf1
                · simp only [Option.some.injEq, Prod.mk.injEq] at h
                  obtain ⟨h1, h2⟩ := h
                  cases h1
                  cases h2
                  exact ⟨hwf1, hwfm1⟩

theorem zomGo_wf (tr : P → Core → CacheMap → Option (JSVal × CacheMap))
    (n : Nat) (hinp : TrInp tr) (hwf : TrWF tr n) (f : Nat) :
    ∀ q cur m acc nx m', cur.value.length = n → cur.status ≠ .error →
      WFState cur → WFMap m n →
      zomGo tr f q cur m acc = some (some nx, m') → WFState nx ∧ WFMap m' n := by
  induction f with
  | zero => intro q cur m acc nx m' _ _ _ _ h; exact absurd h (by simp [zomGo])
  | succ f ih =>
      intro q cur m acc nx m' hlen hne hcur hm h
      simp only [zomGo] at h
      cases htr : tr q cur m with
      | none => rw [htr] at h; exact absurd h (by simp)
      | some vm =>
          obtain ⟨v, m1⟩ := vm
          cases v with
          | none => rw [htr] at h; exact absurd h (by simp)
          | some nx1 =>
              rw [htr] at h
              simp only at h
              obtain ⟨hwf1, hwfm1⟩ := hwf q cur m nx1 m1 hlen hcur hm htr
              split at h
              · simp only [Option.some.injEq, Prod.mk.injEq] at h
                obtain ⟨h1, h2⟩ := h
                cases h1
                cases h2
                exact ⟨⟨hcur.1, by simp [WFState, wfErrNone cur hcur hne]⟩, hwfm1⟩
              · split at h
                · simp only [Option.some.injEq, Prod.mk.injEq] at h
                  obtain ⟨h1, h2⟩ := h
                  cases h1
                  cases h2
                  refine ⟨⟨hcur.1, ?_⟩, hwfm1⟩
                  have hen := wfErrNone cur hcur hne
                  simp only [WFState, hen]
                  constructor
                  · intro hst
                    split at hst
                    · simp at hst
                    · exact absurd hst hne
                  · intro hc
                    exact absurd rfl hc
                · rename_i hnerr
                  have hlen1 : nx1.value.length = n := by
                    have := hinp q cur m nx1 m1 htr
                    unfold Core.value
                    rw [this]
                    exact hlen
                  exact ih q nx1 m1 _ nx m' hlen1 hnerr hwf1 hwfm1 h

theorem oomGo_wf (tr : P → Core → CacheMap → Option (JSVal × CacheMap))
    (n : Nat) (hinp : TrInp tr) (hwf : TrWF tr n) (f : Nat) :
    ∀ q cur m acc nx m', cur.value.length = n → cur.status ≠ .error →
      WFState cur → WFMap m n →
      oomGo tr f q cur m acc = some (some nx, m') → WFState nx ∧ WFMap m' n := by
  induction f with
  | zero => intro q cur m acc nx m' _ _ _ _ h; exact absurd h (by simp [oomGo])
  | succ f ih =>
      intro q cur m acc nx m' hlen hne hcur hm h
      simp only [oomGo] at h
      cases htr : tr q cur m with
      | none => rw [htr] at h; exact absurd h (by simp)
      | some vm =>
          obtain ⟨v, m1⟩ := vm
          cases v with
          | none => rw [htr] at h; exact absurd h (by simp)
          | some nx1 =>
              rw [htr] at h
              simp only at h
              obtain ⟨hwf1, hwfm1⟩ := hwf q cur m nx1 m1 hlen hcur hm htr
              split at h
              · simp only [Option.some.injEq, Prod.mk.injEq] at h
                obtain ⟨h1, h2⟩ := h
                cases h1
                cases h2
                exact ⟨⟨hcur.1, by simp [WFState, wfErrNone cur hcur hne]⟩, hwfm1⟩
              · split at h
                · split at h
                  · simp only [Option.some.injEq, Prod.mk.injEq] at h
                    obtain ⟨h1, h2⟩ := h
                    cases h1
                    cases h2
                    exact ⟨⟨hcur.1, by simp [WFState]⟩, hwfm1⟩
                  · simp only [Option.some.injEq, Prod.mk.injEq] at h
                    obtain ⟨h1, h2⟩ := h
                    cases h1
                    cases h2
                    exact ⟨⟨hcur.1, hcur.2⟩, hwfm1⟩
                · rename_i hnerr
                  have hlen1 : nx1.value.length = n := by
                    have := hinp q cur m nx1 m1 htr
                    unfold Core.value
                    rw [this]
                    exact hlen
                  exact ih q nx1 m1 _ nx m' hlen1 hnerr hwf1 hwfm1 h

theorem optionalFn_wf (tr : P → Core → CacheMap → Option (JSVal × CacheMap))
    (n : Nat) (hwf : TrWF tr n) (q : P) (σ : Core) (m : CacheMap)
    (nx : Core) (m' : CacheMap) (hlen : σ.value.length = n)
    (hne : σ.status ≠ .error) (hσ : WFState σ) (hm : WFMap m n)
    (h : optionalFn tr q σ m = some (some nx, m')) :
    WFState nx ∧ WFMap m' n := by
  simp only [optionalFn] at h
  cases htr : tr q σ m with
  | none => rw [htr] at h; exact absurd h (by simp)
  | some vm =>
      obtain ⟨v, m1⟩ := vm
      cases v with
      | none => rw [htr] at h; exact absurd h (by simp)
      | some nx1 =>
          rw [htr] at h
          simp only at h
          obtain ⟨hwf1, hwfm1⟩ := hwf q σ m nx1 m1 hlen hσ hm htr
          split at h
          · simp only [Option.some.injEq, Prod.mk.injEq] at h
            obtain ⟨h1, h2⟩ := h
            cases h1
            cases h2
            exact ⟨hwf1, hwfm1⟩
          · split at h
            · simp only [Option.some.injEq, Prod.mk.injEq] at h
              obtain ⟨h1, h2⟩ := h
              cases h1
              cases h2
              exact ⟨⟨hσ.1, by simp [WFState, wfErrNone σ hσ hne]⟩, hwfm1⟩
            · simp only [Option.some.injEq, Prod.mk.injEq] at h
              obtain ⟨h1, h2⟩ := h
              cases h1
              cases h2
              exact ⟨hwf1, hwfm1⟩

theorem followedByFn_wf (tr : P → Core → CacheMap → Option (JSVal × CacheMap))
    (n : Nat) (hwf : TrWF tr n) (q : P) (σ : Core) (m : CacheMap)
    (nx : Core) (m' : CacheMap) (hlen : σ.value.length = n)
    (hne : σ.status ≠ .error) (hσ : WFState σ) (hm : WFMap m n)
    (h : followedByFn tr q σ m = some (some nx, m')) :
    WFState nx ∧ WFMap m' n := by
  simp only [followedByFn] at h
  cases htr : tr q σ m with
  | none => rw [htr] at h; exact absurd h (by simp)
  | some vm =>
      obtain ⟨v, m1⟩ := vm
      cases v with
      | none => rw [htr] at h; exact absurd h (by simp)
      | some nx1 =>
          rw [htr] at h
          simp only at h
          obtain ⟨hwf1, hwfm1⟩ := hwf q σ m nx1 m1 hlen hσ hm htr
          split at h
          · rename_i herr1
            simp only [Option.some.injEq, Prod.mk.injEq] at h
            obtain ⟨h1, h2⟩ := h
            cases h1
            cases h2
            refine ⟨⟨hσ.1, ?_⟩, hwfm1⟩
            simp only [WFState]
            constructor
            · intro _
              exact hwf1.2.mp herr1
            · intro _
              trivial
          · rename_i herr1
            simp only [Option.some.injEq, Prod.mk.injEq] at h
            obtain ⟨h1, h2⟩ := h
            cases h1
            cases h2
            refine ⟨⟨hσ.1, ?_⟩, hwfm1⟩
            simp only [WFState, wfErrNone σ hσ hne]
            constructor
            · intro hst
              exact absurd hst herr1
            · intro hc
              exact absurd rfl hc

theorem notFollowedByFn_wf (tr : P → Core → CacheMap → Option (JSVal × CacheMap))
    (n : Nat) (hwf : TrWF tr n) (q : P) (σ : Core) (m : CacheMap)
    (nx : Core) (m' : CacheMap) (hlen : σ.value.length = n)
    (hne : σ.status ≠ .error) (hσ : WFState σ) (hm : WFMap m n)
    (h : notFollowedByFn tr q σ m = some (some nx, m')) :
    WFState nx ∧ WFMap m' n := by
  simp only [notFollowedByFn] at h
  cases htr : tr q σ m with
  | none => rw [htr] at h; exact absurd h (by simp)
  | some vm =>
      obtain ⟨v, m1⟩ := vm
      cases v with
      | none => rw [htr] at h; exact absurd h (by simp)
      | some nx1 =>
          rw [htr] at h
          simp only at h
          obtain ⟨hwf1, hwfm1⟩ := hwf q σ m nx1 m1 hlen hσ hm htr
          split at h
          · simp only [Option.some.injEq, Prod.mk.injEq] at h
            obtain ⟨h1, h2⟩ := h
            cases h1
            cases h2
            exact ⟨⟨hσ.1, by simp [WFState]⟩, hwfm1⟩
          · split at h
            · simp only [Option.some.injEq, Prod.mk.injEq] at h
              obtain ⟨h1, h2⟩ := h
              cases h1
              cases h2
              exact ⟨⟨hσ.1, by simp [WFState]⟩, hwfm1⟩
            · split at h
              · simp only [Option.some.injEq, Prod.mk.injEq] at h
                obtain ⟨h1, h2⟩ := h
                cases h1
                cases h2
                exact ⟨⟨hσ.1, by simp [WFState]⟩, hwfm1⟩
              · simp only [Option.some.injEq, Prod.mk.injEq] at h
                obtain ⟨h1, h2⟩ := h
                cases h1
                cases h2
                exact ⟨⟨hσ.1, by simp [WFState, wfErrNone σ hσ hne]⟩, hwfm1⟩

theorem stepF_wf (env : Env) (tr : P → Core → CacheMap → Option (JSVal × CacheMap))
    (n : Nat) (hinp : TrInp tr) (hwf : TrWF tr n) (f : Nat) (q : P) (σ : Core)
    (m : CacheMap) (nx : Core) (m' : CacheMap) (hlen : σ.value.length = n)
    (hne : σ.status ≠ .error) (hσ : WFState σ) (hm : WFMap m n)
    (h : stepF env tr f q σ m = some (some nx, m')) :
    WFState nx ∧ WFMap m' n := by
  have he : σ.error = none := wfErrNone σ hσ hne
  cases q with
  | literal i t =>
      simp only [stepF, Option.some.injEq, Prod.mk.injEq] at h
      obtain ⟨h1, h2⟩ := h
      cases h1
      cases h2
      exact ⟨literalFn_wf t σ hσ he, hm⟩
  | anyChar i =>
      simp only [stepF, Option.some.injEq, Prod.mk.injEq] at h
      obtain ⟨h1, h2⟩ := h
      cases h1
      cases h2
      exact ⟨anyCharFn_wf σ hσ he, hm⟩
  | charFrom i s =>
      simp only [stepF, Option.some.injEq, Prod.mk.injEq] at h
      obtain ⟨h1, h2⟩ := h
      cases h1
      cases h2
      exact ⟨charFromFn_wf s σ hσ he, hm⟩
  | endOfInput i =>
      simp only [stepF, Option.some.injEq, Prod.mk.injEq] at h
      obtain ⟨h1, h2⟩ := h
      cases h1
      cases h2
      exact ⟨endOfInputFn_wf σ hσ he, hm⟩
  | sequenceOf i ps =>
      simp only [stepF] at h
      exact seqGo_wf tr n hinp hwf ps _ _ σ m nx m' hlen hne hσ hm h
  | oneOf i ps =>
      simp only [stepF] at h
      exact oneOfGo_wf tr n hwf ps σ m none nx m' hlen hσ hm
        (by intro e he'; cases he') h
  | zeroOrMore i p =>
      simp only [stepF] at h
      exact zomGo_wf tr n hinp hwf f p σ m [] nx m' hlen hne hσ hm h
  | oneOrMore i p =>
      simp only [stepF] at h
      exact oomGo_wf tr n hinp hwf f p σ m [] nx m' hlen hne hσ hm h
  | optional i p =>
      simp only [stepF] at h
      exact optionalFn_wf tr n hwf p σ m nx m' hlen hne hσ hm h
  | followedBy i p =>
      simp only [stepF] at h
      exact followedByFn_wf tr n hwf p σ m nx m' hlen hne hσ hm h
  | notFollowedBy i p =>
      simp only [stepF] at h
      exact notFollowedByFn_wf tr n hwf p σ m nx m' hlen hne hσ hm h
  | lazy i t =>
      simp only [stepF] at h
      cases helk : elookup env t with
      | none => rw [helk] at h; exact absurd h (by simp)
      | some p => rw [helk] at h; exact hwf p σ m nx m' hlen hσ hm h

theorem transform_wf (env : Env) (n : Nat) : ∀ f, TrWF (transform env f) n := by
  intro f
  induction f with
  | zero => intro q σ m nx m' _ _ _ h; exact absurd h (by simp [transform])
  | succ f ih =>
      intro q σ m nx m' hlen hσ hm h
      simp only [transform] at h
      split at h
      · simp only [Option.some.injEq, Prod.mk.injEq] at h
        obtain ⟨h1, h2⟩ := h
        cases h1
        cases h2
        exact ⟨hσ, hm⟩
      · rename_i hne
        have hrun : ∀ h' : (match stepF env (transform env f) f q σ m with
            | none => none
            | some (none, m') => some (none, m')
            | some (some nx1, m1) =>
                some (some nx1, ((pid q, σ.index), nx1) :: m1)) =
              some (some nx, m'),
            WFState nx ∧ WFMap m' n := by
          intro h'
          cases hst : stepF env (transform env f) f q σ m with
          | none => rw [hst] at h'; exact absurd h' (by simp)
          | some vm =>
              obtain ⟨v, m1⟩ := vm
              cases v with
              | none => rw [hst] at h'; exact absurd h' (by simp)
              | some nx1 =>
                  rw [hst] at h'
                  simp only [Option.some.injEq, Prod.mk.injEq] at h'
                  obtain ⟨h1, h2⟩ := h'
                  cases h1
                  cases h2
                  obtain ⟨hwf1, hwfm1⟩ := stepF_wf env (transform env f) n
                    (transform_input env f) ih f q σ m nx m1 hlen hne hσ hm hst
                  refine ⟨hwf1, wfMapCons m1 n _ nx hwfm1 ?_ hwf1.2⟩
                  have hvals : nx.value.length = n := by
                    have := stepF_input env (transform env f)
                      (transform_input env f) f q σ m nx m1 hst
                    unfold Core.value
                    rw [this]
                    exact hlen
                  exact hvals ▸ hwf1.1
        split at h
        · split at h
          · simp only [Option.some.injEq, Prod.mk.injEq] at h
            obtain ⟨h1, h2⟩ := h
            cases h1
            cases h2
            rename_i e hlk _
            have hmem := mlookup_mem m _ e hlk
            obtain ⟨hei, heiff⟩ := hm _ e hmem
            exact ⟨⟨hlen ▸ hei, heiff⟩, hm⟩
          · exact hrun h
        · exact hrun h

/-!
## No new PARTIAL once the snapshot is final (amended C6)
-/

/-- Over a final snapshot, `tr` never returns a PARTIAL state and never
stores one (given every `sequenceOf` in sight is non-empty). -/
def TrNP (tr : P → Core → CacheMap → Option (JSVal × CacheMap)) : Prop :=
  ∀ q σ m nx m', seqNE q → σ.done = true → NoPartMap m →
    tr q σ m = some (some nx, m') → nx.status ≠ .part ∧ NoPartMap m'

theorem eoiNonFinal_done (σ : Core) (h : σ.done = true) :
    eoiNonFinal σ = false := by
  simp [eoiNonFinal, h]

theorem npMapCons (m : CacheMap) (k : Nat × Nat) (e : Core)
    (hm : NoPartMap m) (hne : e.status = .part → e.done = false) :
    NoPartMap ((k, e) :: m) := by
  intro k' e' hmem
  rcases List.mem_cons.mp hmem with hc | hc
  · cases hc
    exact hne
  · exact hm k' e' hc

theorem elookup_mem (env : Env) (t : Nat) (p : P)
    (h : elookup env t = some p) : (t, p) ∈ env := by
  induction env with
  | nil => simp [elookup] at h
  | cons kv rest ih =>
      obtain ⟨k0, v0⟩ := kv
      by_cases hk : k0 = t
      · simp only [elookup] at h
        rw [if_pos hk] at h
        injection h with h1
        subst h1
        subst hk
        exact List.mem_cons_self _ _
      · simp only [elookup] at h
        rw [if_neg hk] at h
        exact List.mem_cons_of_mem _ (ih h)

theorem literalFn_np (t : Str) (σ : Core) (h : σ.done = true) :
    (literalFn t σ).status ≠ .part := by
  simp only [literalFn]
  split_ifs with h1 h2 h3
  · simp
  · exact absurd h (by simp [h2.1])
  · simp
  · simp

theorem anyCharFn_np (σ : Core) : (anyCharFn σ).status ≠ .part := by
  simp only [anyCharFn]
  split_ifs <;> simp

theorem charFromFn_np (s : List CSpec) (σ : Core) :
    (charFromFn s σ).status ≠ .part := by
  simp only [charFromFn]
  split_ifs <;> simp

theorem endOfInputFn_np (σ : Core) : (endOfInputFn σ).status ≠ .part := by
  simp only [endOfInputFn]
  split_ifs <;> simp

theorem seqGo_np (tr : P → Core → CacheMap → Option (JSVal × CacheMap))
    (hinp : TrInp tr) (hnp : TrNP tr) (ps : List P) :
    ∀ nn acc cur m nx m', seqNEs ps → (ps ≠ [] ∨ cur.status ≠ .part) →
      cur.done = true → NoPartMap m →
      seqGo tr ps nn acc cur m = some (some nx, m') →
      nx.status ≠ .part ∧ NoPartMap m' := by
  induction ps with
  | nil =>
      intro nn acc cur m nx m' hnes hor hdone hm h
      simp only [seqGo, Option.some.injEq, Prod.mk.injEq] at h
      obtain ⟨h1, h2⟩ := h
      cases h1
      cases h2
      rcases hor with hor | hor
      · exact absurd rfl hor
      · exact ⟨hor, hm⟩
  | cons q qs ih =>
      intro nn acc cur m nx m' hnes hor hdone hm h
      obtain ⟨hq, hqs⟩ := hnes
      simp only [seqGo] at h
      cases htr : tr q cur m with
      | none => rw [htr] at h; exact absurd h (by simp)
      | some vm =>
          obtain ⟨v, m1⟩ := vm
          cases v with
          | none => rw [htr] at h; exact absurd h (by simp)
          | some nx1 =>
              rw [htr] at h
              simp only at h
              obtain ⟨hnp1, hnpm1⟩ := hnp q cur m nx1 m1 hq hdone hm htr
              have hdone1 : nx1.done = true := by
                have := hinp q cur m nx1 m1 htr
                unfold Core.done
                rw [this]
                exact hdone
              split at h
              · rename_i hcond
                rw [eoiNonFinal_done nx1 hdone1] at hcond
                cases hcond
              · split at h
                · simp only [Option.some.injEq, Prod.mk.injEq] at h
                  obtain ⟨h1, h2⟩ := h
                  cases h1
                  cases h2
                  exact ⟨hnp1, hnpm1⟩
                · exact ih _ _ nx1 m1 nx m' hqs (Or.inr hnp1) hdone1 hnpm1 h

theorem oneOfGo_np (tr : P → Core → CacheMap → Option (JSVal × CacheMap))
    (hnp : TrNP tr) (qs : List P) :
    ∀ σ m fe nx m', seqNEs qs → σ.done = true → NoPartMap m →
      (∀ e, fe = some e → e.status ≠ .part) →
      oneOfGo tr qs σ m fe = some (some nx, m') →
      nx.status ≠ .part ∧ NoPartMap m' := by
  induction qs with
  | nil =>
      intro σ m fe nx m' _ _ hm hfe h
      simp only [oneOfGo, Option.some.injEq, Prod.mk.injEq] at h
      obtain ⟨h1, h2⟩ := h
      cases h2
      exact ⟨hfe nx h1, hm⟩
  | cons q qs ih =>
      intro σ m fe nx m' hnes hdone hm hfe h
      obtain ⟨hq, hqs⟩ := hnes
      simp only [oneOfGo] at h
      cases htr : tr q σ m with
      | none => rw [htr] at h; exact absurd h (by simp)
      | some vm =>
          obtain ⟨v, m1⟩ := vm
          cases v with
          | none => rw [htr] at h; exact absurd h (by simp)
          | some nx1 =>
              rw [htr] at h
              simp only at h
              obtain ⟨hnp1, hnpm1⟩ := hnp q σ m nx1 m1 hq hdone hm htr
              split at h
              · simp only [Option.some.injEq, Prod.mk.injEq] at h
                obtain ⟨h1, h2⟩ := h
                cases h1
                cases h2
                exact ⟨hnp1, hnpm1⟩
              · split at h
                · refine ih σ m1 _ nx m' hqs hdone hnpm1 ?_ h
                  intro e he
                  cases hfe0 : fe with
                  | some e0 =>
                      rw [hfe0] at he
                      simp only [Option.orElse] at he
                      injection he with hee
                      exact hee ▸ hfe e0 hfe0
                  | none =>
                      rw [hfe0] at he
                      simp only [Option.orElse] at he
                      injection he with hee
                      exact hee ▸ hnp1
                · simp only [Option.some.injEq, Prod.mk.injEq] at h
                  obtain ⟨h1, h2⟩ := h
                  cases h1
                  cases h2
                  exact ⟨hnp1, hnpm1⟩

theorem zomGo_np (tr : P → Core → CacheMap → Option (JSVal × CacheMap))
    (hinp : TrInp tr) (hnp : TrNP tr) (q : P) (f : Nat) :
    ∀ cur m acc nx m', seqNE q → (acc = [] ∨ cur.status ≠ .part) →
      cur.done = true → NoPartMap m →
      zomGo tr f q cur m acc = some (some nx, m') →
      nx.status ≠ .part ∧ NoPartMap m' := by
  induction f with
  | zero => intro cur m acc nx m' _ _ _ _ h; exact absurd h (by simp [zomGo])
  | succ f ih =>
      intro cur m acc nx m' hq hor hdone hm h
      simp only [zomGo] at h
      cases htr : tr q cur m with
      | none => rw [htr] at h; exact absurd h (by simp)
      | some vm =>
          obtain ⟨v, m1⟩ := vm
          cases v with
          | none => rw [htr] at h; exact absurd h (by simp)
          | some nx1 =>
              rw [htr] at h
              simp only at h
              obtain ⟨hnp1, hnpm1⟩ := hnp q cur m nx1 m1 hq hdone hm htr
              have hdone1 : nx1.done = true := by
                have := hinp q cur m nx1 m1 htr
                unfold Core.done
                rw [this]
                exact hdone
              split at h
              · rename_i hcond
                rw [eoiNonFinal_done nx1 hdone1] at hcond
                cases hcond
              · split at h
                · simp only [Option.some.injEq, Prod.mk.injEq] at h
                  obtain ⟨h1, h2⟩ := h
                  cases h1
                  cases h2
                  refine ⟨?_, hnpm1⟩
                  intro hst
                  rcases hor with hor | hor
                  · rw [hor] at hst
                    simp at hst
                  · split at hst
                    · simp at hst
                    · exact hor hst
                · refine ih nx1 m1 _ nx m' hq (Or.inr hnp1) hdone1 hnpm1 h

theorem oomGo_np (tr : P → Core → CacheMap → Option (JSVal × CacheMap))
    (hinp : TrInp tr) (hnp : TrNP tr) (q : P) (f : Nat) :
    ∀ cur m acc nx m', seqNE q → (acc = [] ∨ cur.status ≠ .part) →
      cur.done = true → NoPartMap m →
      oomGo tr f q cur m acc = some (some nx, m') →
      nx.status ≠ .part ∧ NoPartMap m' := by
  induction f with
  | zero => intro cur m acc nx m' _ _ _ _ h; exact absurd h (by simp [oomGo])
  | succ f ih =>
      intro cur m acc nx m' hq hor hdone hm h
      simp only [oomGo] at h
      cases htr : tr q cur m with
      | none => rw [htr] at h; exact absurd h (by simp)
      | some vm =>
          obtain ⟨v, m1⟩ := vm
          cases v with
          | none => rw [htr] at h; exact absurd h (by simp)
          | some nx1 =>
              rw [htr] at h
              simp only at h
              obtain ⟨hnp1, hnpm1⟩ := hnp q cur m nx1 m1 hq hdone hm htr
              have hdone1 : nx1.done = true := by
                have := hinp q cur m nx1 m1 htr
                unfold Core.done
                rw [this]
                exact hdone
              split at h
              · rename_i hcond
                rw [eoiNonFinal_done nx1 hdone1] at hcond
                cases hcond
              · split at h
                · split at h
                  · simp only [Option.some.injEq, Prod.mk.injEq] at h
                    obtain ⟨h1, h2⟩ := h
                    cases h1
                    cases h2
                    exact ⟨by simp, hnpm1⟩
                  · rename_i hemp
                    simp only [Option.some.injEq, Prod.mk.injEq] at h
                    obtain ⟨h1, h2⟩ := h
                    cases h1
                    cases h2
                    refine ⟨?_, hnpm1⟩
                    rcases hor with hor | hor
                    · exact absurd (by simp [hor]) hemp
                    · exact hor
                · refine ih nx1 m1 _ nx m' hq (Or.inr hnp1) hdone1 hnpm1 h

theorem optionalFn_np (tr : P → Core → CacheMap → Option (JSVal × CacheMap))
    (hinp : TrInp tr) (hnp : TrNP tr) (q : P) (σ : Core) (m : CacheMap)
    (nx : Core) (m' : CacheMap) (hq : seqNE q) (hdone : σ.done = true)
    (hm : NoPartMap m) (h : optionalFn tr q σ m = some (some nx, m')) :
    nx.status ≠ .part ∧ NoPartMap m' := by
  simp only [optionalFn] at h
  cases htr : tr q σ m with
  | none => rw [htr] at h; exact absurd h (by simp)
  | some vm =>
      obtain ⟨v, m1⟩ := vm
      cases v with
      | none => rw [htr] at h; exact absurd h (by simp)
      | some nx1 =>
          rw [htr] at h
          simp only at h
          obtain ⟨hnp1, hnpm1⟩ := hnp q σ m nx1 m1 hq hdone hm htr
          have hdone1 : nx1.done = true := by
            have := hinp q σ m nx1 m1 htr
            unfold Core.done
            rw [this]
            exact hdone
          split at h
          · rename_i hcond
            rw [eoiNonFinal_done nx1 hdone1] at hcond
            cases hcond
          · split at h
            · simp only [Option.some.injEq, Prod.mk.injEq] at h
              obtain ⟨h1, h2⟩ := h
              cases h1
              cases h2
              exact ⟨by simp, hnpm1⟩
            · simp only [Option.some.injEq, Prod.mk.injEq] at h
              obtain ⟨h1, h2⟩ := h
              cases h1
              cases h2
              exact ⟨hnp1, hnpm1⟩

theorem followedByFn_np (tr : P → Core → CacheMap → Option (JSVal × CacheMap))
    (hnp : TrNP tr) (q : P) (σ : Core) (m : CacheMap)
    (nx : Core) (m' : CacheMap) (hq : seqNE q) (hdone : σ.done = true)
    (hm : NoPartMap m) (h : followedByFn tr q σ m = some (some nx, m')) :
    nx.status ≠ .part ∧ NoPartMap m' := by
  simp only [followedByFn] at h
  cases htr : tr q σ m with
  | none => rw [htr] at h; exact absurd h (by simp)
  | some vm =>
      obtain ⟨v, m1⟩ := vm
      cases v with
      | none => rw [htr] at h; exact absurd h (by simp)
      | some nx1 =>
          rw [htr] at h
          simp only at h
          obtain ⟨hnp1, hnpm1⟩ := hnp q σ m nx1 m1 hq hdone hm htr
          split at h
          · simp only [Option.some.injEq, Prod.mk.injEq] at h
            obtain ⟨h1, h2⟩ := h
            cases h1
            cases h2
            exact ⟨by simp, hnpm1⟩
          · simp only [Option.some.injEq, Prod.mk.injEq] at h
            obtain ⟨h1, h2⟩ := h
            cases h1
            cases h2
            exact ⟨hnp1, hnpm1⟩

theorem notFollowedByFn_np (tr : P → Core → CacheMap → Option (JSVal × CacheMap))
    (hnp : TrNP tr) (q : P) (σ : Core) (m : CacheMap)
    (nx : Core) (m' : CacheMap) (hq : seqNE q) (hdone : σ.done = true)
    (hm : NoPartMap m) (h : notFollowedByFn tr q σ m = some (some nx, m')) :
    nx.status ≠ .part ∧ NoPartMap m' := by
  simp only [notFollowedByFn] at h
  cases htr : tr q σ m with
  | none => rw [htr] at h; exact absurd h (by simp)
  | some vm =>
      obtain ⟨v, m1⟩ := vm
      cases v with
      | none => rw [htr] at h; exact absurd h (by simp)
      | some nx1 =>
          rw [htr] at h
          simp only at h
          obtain ⟨hnp1, hnpm1⟩ := hnp q σ m nx1 m1 hq hdone hm htr
          repeat' split at h
          all_goals
            simp only [Option.some.injEq, Prod.mk.injEq] at h
          all_goals
            obtain ⟨h1, h2⟩ := h
          all_goals
            cases h1
          all_goals
            cases h2
          all_goals
            exact ⟨by simp, hnpm1⟩

theorem stepF_np (env : Env) (tr : P → Core → CacheMap → Option (JSVal × CacheMap))
    (henv : envNE env) (hinp : TrInp tr) (hnp : TrNP tr) (f : Nat) (q : P)
    (σ : Core) (m : CacheMap) (nx : Core) (m' : CacheMap) (hq : seqNE q)
    (hdone : σ.done = true) (hm : NoPartMap m)
    (h : stepF env tr f q σ m = some (some nx, m')) :
    nx.status ≠ .part ∧ NoPartMap m' := by
  cases q with
  | literal i t =>
      simp only [stepF, Option.some.injEq, Prod.mk.injEq] at h
      obtain ⟨h1, h2⟩ := h
      cases h1
      cases h2
      exact ⟨literalFn_np t σ hdone, hm⟩
  | anyChar i =>
      simp only [stepF, Option.some.injEq, Prod.mk.injEq] at h
      obtain ⟨h1, h2⟩ := h
      cases h1
      cases h2
      exact ⟨anyCharFn_np σ, hm⟩
  | charFrom i s =>
      simp only [stepF, Option.some.injEq, Prod.mk.injEq] at h
      obtain ⟨h1, h2⟩ := h
      cases h1
      cases h2
      exact ⟨charFromFn_np s σ, hm⟩
  | endOfInput i =>
      simp only [stepF, Option.some.injEq, Prod.mk.injEq] at h
      obtain ⟨h1, h2⟩ := h
      cases h1
      cases h2
      exact ⟨endOfInputFn_np σ, hm⟩
  | sequenceOf i ps =>
      simp only [stepF] at h
      obtain ⟨hps, hpss⟩ := hq
      exact seqGo_np tr hinp hnp ps _ _ σ m nx m' hpss (Or.inl hps) hdone hm h
  | oneOf i ps =>
      simp only [stepF] at h
      exact oneOfGo_np tr hnp ps σ m none nx m' hq hdone hm
        (by intro e he; cases he) h
  | zeroOrMore i p =>
      simp only [stepF] at h
      exact zomGo_np tr hinp hnp p f σ m [] nx m' hq (Or.inl rfl) hdone hm h
  | oneOrMore i p =>
      simp only [stepF] at h
      exact oomGo_np tr hinp hnp p f σ m [] nx m' hq (Or.inl rfl) hdone hm h
  | optional i p =>
      simp only [stepF] at h
      exact optionalFn_np tr hinp hnp p σ m nx m' hq hdone hm h
  | followedBy i p =>
      simp only [stepF] at h
      exact followedByFn_np tr hnp p σ m nx m' hq hdone hm h
  | notFollowedBy i p =>
      simp only [stepF] at h
      exact notFollowedByFn_np tr hnp p σ m nx m' hq hdone hm h
  | lazy i t =>
      simp only [stepF] at h
      cases helk : elookup env t with
      | none => rw [helk] at h; exact absurd h (by simp)
      | some p =>
          rw [helk] at h
          exact hnp p σ m nx m' (henv (t, p) (elookup_mem env t p helk)) hdone hm h

theorem transform_np (env : Env) (henv : envNE env) :
    ∀ f, TrNP (transform env f) := by
  intro f
  induction f with
  | zero => intro q σ m nx m' _ _ _ h; exact absurd h (by simp [transform])
  | succ f ih =>
      intro q σ m nx m' hq hdone hm h
      simp only [transform] at h
      split at h
      · rename_i herr
        simp only [Option.some.injEq, Prod.mk.injEq] at h
        obtain ⟨h1, h2⟩ := h
        cases h1
        cases h2
        exact ⟨by rw [herr]; simp, hm⟩
      · have hrun : ∀ h' : (match stepF env (transform env f) f q σ m with
            | none => none
            | some (none, m') => some (none, m')
            | some (some nx1, m1) =>
                some (some nx1, ((pid q, σ.index), nx1) :: m1)) =
              some (some nx, m'),
            nx.status ≠ .part ∧ NoPartMap m' := by
          intro h'
          cases hst : stepF env (transform env f) f q σ m with
          | none => rw [hst] at h'; exact absurd h' (by simp)
          | some vm =>
              obtain ⟨v, m1⟩ := vm
              cases v with
              | none => rw [hst] at h'; exact absurd h' (by simp)
              | some nx1 =>
                  rw [hst] at h'
                  simp only [Option.some.injEq, Prod.mk.injEq] at h'
                  obtain ⟨h1, h2⟩ := h'
                  cases h1
                  cases h2
                  obtain ⟨hnp1, hnpm1⟩ := stepF_np env (transform env f) henv
                    (transform_input env f) ih f q σ m nx m1 hq hdone hm hst
                  exact ⟨hnp1, npMapCons m1 _ nx hnpm1 (fun hp => absurd hp hnp1)⟩
        split at h
        · split at h
          · rename_i e hlk hre
            simp only [Option.some.injEq, Prod.mk.injEq] at h
            obtain ⟨h1, h2⟩ := h
            cases h1
            cases h2
            refine ⟨?_, hm⟩
            intro hst
            have hep : e.status = .part := hst
            rcases hre with hre | hre | hre
            · rw [hep] at hre; cases hre
            · obtain ⟨_, _, hd⟩ := hre
              have := hm _ e (mlookup_mem m _ e hlk) hep
              rw [hd, hdone] at this
              cases this
            · rw [hep] at hre
              obtain ⟨hre, _⟩ := hre
              cases hre
          · exact hrun h
        · exact hrun h

/-!
## Shape of the emission sequence (amended C3)
-/

theorem allButLastPart_cons (v : JSVal) (l : List JSVal) (hl : l ≠ []) :
    allButLastPart (v :: l) ↔
      ((∃ σ, v = some σ ∧ σ.status = .part) ∧ allButLastPart l) := by
  cases l with
  | nil => exact absurd rfl hl
  | cons w rest => exact Iff.rfl

theorem parseIterableGo_ne_nil (env : Env) (p : P) (f : Nat) :
    ∀ chunks cur buf m out,
      parseIterableGo env p f chunks cur buf m = some out → out ≠ [] := by
  intro chunks
  induction chunks with
  | nil =>
      intro cur buf m out h
      simp only [parseIterableGo] at h
      cases ht : transform env f p { cur with input := (buf, true), index := 0 } m with
      | none => rw [ht] at h; exact absurd h (by simp)
      | some vm =>
          rw [ht] at h
          simp only [Option.some.injEq] at h
          rw [← h]
          simp
  | cons c rest ih =>
      intro cur buf m out h
      simp only [parseIterableGo] at h
      cases ht : transform env f p
          { cur with input := (buf ++ c, false), index := 0 } m with
      | none => rw [ht] at h; exact absurd h (by simp)
      | some vm =>
          obtain ⟨v, m1⟩ := vm
          cases v with
          | none => rw [ht] at h; exact absurd h (by simp)
          | some nx =>
              rw [ht] at h
              simp only at h
              split at h
              · exact ih cur (buf ++ c) m1 out h
              · split at h
                · exact ih cur (buf ++ c) m1 out h
                · split at h
                  · cases hgo : parseIterableGo env p f rest nx (buf ++ c) m1 with
                    | none => rw [hgo] at h; exact absurd h (by simp)
                    | some out' =>
                        rw [hgo] at h
                        simp only [Option.some.injEq] at h
                        rw [← h]
                        simp
                  · simp only [Option.some.injEq] at h
                    rw [← h]
                    simp

theorem parseIterableGo_abl (env : Env) (p : P) (f : Nat) :
    ∀ chunks cur buf m out,
      parseIterableGo env p f chunks cur buf m = some out →
      allButLastPart out := by
  intro chunks
  induction chunks with
  | nil =>
      intro cur buf m out h
      simp only [parseIterableGo] at h
      cases ht : transform env f p { cur with input := (buf, true), index := 0 } m with
      | none => rw [ht] at h; exact absurd h (by simp)
      | some vm =>
          rw [ht] at h
          simp only [Option.some.injEq] at h
          rw [← h]
          trivial
  | cons c rest ih =>
      intro cur buf m out h
      simp only [parseIterableGo] at h
      cases ht : transform env f p
          { cur with input := (buf ++ c, false), index := 0 } m with
      | none => rw [ht] at h; exact absurd h (by simp)
      | some vm =>
          obtain ⟨v, m1⟩ := vm
          cases v with
          | none => rw [ht] at h; exact absurd h (by simp)
          | some nx =>
              rw [ht] at h
              simp only at h
              split at h
              · exact ih cur (buf ++ c) m1 out h
              · split at h
                · exact ih cur (buf ++ c) m1 out h
                · split at h
                  · rename_i hpart
                    cases hgo : parseIterableGo env p f rest nx (buf ++ c) m1 with
                    | none => rw [hgo] at h; exact absurd h (by simp)
                    | some out' =>
                        rw [hgo] at h
                        simp only [Option.some.injEq] at h
                        rw [← h]
                        rw [allButLastPart_cons _ out'
                          (parseIterableGo_ne_nil env p f rest nx (buf ++ c) m1 out' hgo)]
                        exact ⟨⟨nx, rfl, hpart⟩, ih nx (buf ++ c) m1 out' hgo⟩
                  · simp only [Option.some.injEq] at h
                    rw [← h]
                    trivial

theorem abl_terminal_last :
    ∀ out : List JSVal, allButLastPart out →
      ∀ i (hi : i < out.length), isTerminalE (out.get ⟨i, hi⟩) = true →
        i + 1 = out.length := by
  intro out
  induction out with
  | nil => intro _ i hi; exact absurd hi (by simp)
  | cons v rest ih =>
      intro habl i hi hterm
      cases rest with
      | nil =>
          simp only [List.length_cons, List.length_nil] at hi ⊢
          omega
      | cons w rest' =>
          cases i with
          | zero =>
              obtain ⟨⟨σ, hv, hp⟩, _⟩ := habl
              have hv0 : isTerminalE v = true := hterm
              rw [hv] at hv0
              simp [isTerminalE, hp] at hv0
          | succ j =>
              have hj : j < (w :: rest').length := by
                simp only [List.length_cons] at hi ⊢
                omega
              have hterm' : isTerminalE ((w :: rest').get ⟨j, hj⟩) = true := hterm
              have hlen : j + 1 = rest'.length + 1 := by
                simpa using ih habl.2 j hj hterm'
              simp only [List.length_cons]
              omega

theorem abl_filter_le_one :
    ∀ out : List JSVal, allButLastPart out →
      (out.filter isTerminalE).length ≤ 1 := by
  intro out
  induction out with
  | nil => intro _; simp
  | cons v rest ih =>
      intro habl
      cases rest with
      | nil =>
          simp only [List.filter]
          cases isTerminalE v <;> simp
      | cons w rest' =>
          obtain ⟨⟨σ, hv, hp⟩, habl'⟩ := habl
          have hvf : isTerminalE v = false := by
            rw [hv]
            simp [isTerminalE, hp]
          simp only [List.filter, hvf]
          exact ih habl'

end ParseLib
namespace ParseLib

/-!
## Divergence of the repetition loop on zero-width successes (C7)
-/

theorem div_fixed_step (f : Nat) :
    transform [] (f + 1) divOpt divOkSt divMap = some (some divOkSt, divMap) := rfl

theorem div_loop_none (f : Nat) :
    ∀ g acc, zomGo (transform [] f) g divOpt divOkSt divMap acc = none := by
  induction f with
  | zero =>
      intro g acc
      cases g with
      | zero => rfl
      | succ g => rfl
  | succ f _ =>
      intro g acc
      induction g generalizing acc with
      | zero => rfl
      | succ g ihg =>
          simp only [zomGo, div_fixed_step f]
          have h1 : eoiNonFinal divOkSt = false := rfl
          rw [h1]
          simp only [Bool.false_eq_true, if_false]
          have h2 : (divOkSt.status = Status.error) = False := by
            simp [divOkSt, divSt, initState]
          simp only [h2, if_false]
          exact ihg _

theorem div_first_step (f : Nat) :
    transform [] (f + 2) divOpt divSt [] = some (some divOkSt, divMap) := rfl

theorem div_entry_loop_none (f : Nat) :
    ∀ g, zomGo (transform [] f) g divOpt divSt [] [] = none := by
  intro g
  cases g with
  | zero => rfl
  | succ g =>
      cases f with
      | zero => rfl
      | succ f =>
          cases f with
          | zero => rfl
          | succ f =>
              simp only [zomGo, div_first_step f]
              have h1 : eoiNonFinal divOkSt = false := rfl
              rw [h1]
              simp only [Bool.false_eq_true, if_false]
              have h2 : (divOkSt.status = Status.error) = False := by
                simp [divOkSt, divSt, initState]
              simp only [h2, if_false]
              exact div_loop_none (f + 2) g _

theorem div_transform_none (f : Nat) :
    transform [] f cexZomOpt divSt [] = none := by
  cases f with
  | zero => rfl
  | succ f =>
      have hstep : stepF [] (transform [] f) f cexZomOpt divSt [] =
          zomGo (transform [] f) f divOpt divSt [] [] := rfl
      simp only [transform]
      have hne : (divSt.status = Status.error) = False := by
        simp [divSt, initState]
      simp only [hne, if_false]
      have hlk : mlookup [] (pid cexZomOpt, divSt.index) = none := rfl
      simp only [hlk]
      rw [hstep, div_entry_loop_none f f]

end ParseLib
namespace ParseLib

/-!
## Running a prefix of COMPLETE children through the sequence loop (C4)
-/

theorem ct_length (tr : P → Core → CacheMap → Option (JSVal × CacheMap)) :
    ∀ qs σ m σ' m' rs, CompletesThrough tr qs σ m σ' m' rs →
      rs.length = qs.length := by
  intro qs
  induction qs with
  | nil =>
      intro σ m σ' m' rs h
      obtain ⟨_, _, h3⟩ := h
      rw [h3]
      rfl
  | cons q qs ih =>
      intro σ m σ' m' rs h
      obtain ⟨σ1, m1, rs1, _, _, hct, hrs⟩ := h
      rw [hrs]
      simp only [List.length_cons]
      rw [ih σ1 m1 σ' m' rs1 hct]

theorem eoiNonFinal_of_complete (σ : Core) (h : σ.status = .complete) :
    eoiNonFinal σ = false := by
  simp [eoiNonFinal, h]

theorem seqGo_completes (tr : P → Core → CacheMap → Option (JSVal × CacheMap)) :
    ∀ qs1 rest nn acc σ m σk mk rs,
      CompletesThrough tr qs1 σ m σk mk rs →
      seqGo tr (qs1 ++ rest) nn acc σ m = seqGo tr rest nn (acc ++ rs) σk mk := by
  intro qs1
  induction qs1 with
  | nil =>
      intro rest nn acc σ m σk mk rs h
      obtain ⟨h1, h2, h3⟩ := h
      subst h1
      subst h2
      rw [h3]
      simp
  | cons q qs ih =>
      intro rest nn acc σ m σk mk rs h
      obtain ⟨σ1, m1, rs1, htr, hcs, hct, hrs⟩ := h
      simp only [List.cons_append, seqGo]
      rw [htr]
      simp only
      rw [eoiNonFinal_of_complete σ1 hcs]
      simp only [Bool.false_eq_true, if_false]
      rw [if_neg (by rw [hcs]; simp)]
      rw [hrs]
      have h2 : acc ++ σ1.result :: rs1 = (acc ++ [σ1.result]) ++ rs1 := by simp
      rw [h2]
      exact ih rest nn (acc ++ [σ1.result]) σ1 m1 σk mk rs1 hct

end ParseLib
namespace ParseLib

/-!
## Claim theorems
-/

/-- Claim C1 (code bug): streaming is supposed to give the same terminal
verdict as whole-string parsing, but for
`sequenceOf(followedBy(literal("abc")), literal("ab"))` on the partition
`"abx" = "ab" ++ "x"` the driver emits a terminal COMPLETE at index 2 after
the first chunk (the lookahead's PARTIAL at the entry offset lets the
sequence run past it and commit), while `parseString("abx")` returns a
MISMATCH error at index 0. -/
theorem C1_streaming_vs_string_mismatch :
    obsListR (parseIterable [] cexSeqFb 20 [['a', 'b'], ['x']]) =
      some [some (.complete, 2, .arr [.str "ab", .str "ab"])] ∧
    obsView (parseString [] cexSeqFb 20 ['a', 'b', 'x']) =
      some (some (.error, 0, .nullv, true)) := ⟨rfl, rfl⟩

/-- Claim C3, counterexample: for `oneOf(literal("abc"), literal("x"))` on
chunks `["ab", "d"]` the driver emits a PARTIAL at index 2 and then a
MISMATCH error at index 0 — the emitted index decreases. -/
theorem C3_counterexample :
    obsList (parseIterable [] cexOneOf 20 [['a', 'b'], ['d']]) =
      some [some (.part, 2), some (.error, 0)] := rfl

/-- Claim C3, amended: in the emission sequence of `parseIterable`, at most
one emitted state is terminal (COMPLETE or non-EOI ERROR) and a terminal
emission is the last one; the index, however, need not be monotone (see the
counterexample). -/
theorem C3_terminal_once_and_last (env : Env) (p : P) (f : Nat)
    (chunks : List Str) (out : List JSVal)
    (h : parseIterable env p f chunks = some out) :
    (out.filter isTerminalE).length ≤ 1 ∧
    ∀ i (hi : i < out.length), isTerminalE (out.get ⟨i, hi⟩) = true →
      i + 1 = out.length := by
  have habl := parseIterableGo_abl env p f chunks (initState [] false) [] [] out h
  exact ⟨abl_filter_le_one out habl, abl_terminal_last out habl⟩

/-- Witness for C3's amended theorem: `literal("a")` over an exhausted chunk
list emits exactly the final flush, an EOI error, which is not terminal. -/
theorem C3_terminal_once_and_last_witness :
    (List.filter isTerminalE [some (⟨([], true), 0, .error, .nullv,
        some ⟨true, "Expected \"a\", but got unexpected end of input"⟩⟩ : Core)]).length ≤ 1 :=
  (C3_terminal_once_and_last [] (.literal 0 ['a']) 3 [] _ rfl).1

/-- Claim C5, counterexample: `sequenceOf(literal("a"), literal("x"))` on
`"ab"` returns an ERROR state whose `result` is the first child's `"a"`,
not null — the spec's "`result` is null on ERROR" clause fails. -/
theorem C5_counterexample :
    obsView (parseString [] cexSeqErr 10 ['a', 'b']) =
      some (some (.error, 1, .str "a", true)) := rfl

/-- Claim C5, amended: every state produced by `Parser.transform` from a
well-formed state over a well-formed table satisfies
`index ≤ length(input.value)` and `status = ERROR ↔ error ≠ null`; the
error state's `result`, however, may be any leftover value. -/
theorem C5_wellformed_states (env : Env) (f : Nat) (p : P) (σ : Core)
    (m : CacheMap) (nx : Core) (m' : CacheMap) (hσ : WFState σ)
    (hm : WFMap m σ.value.length)
    (h : transform env f p σ m = some (some nx, m')) :
    nx.index ≤ nx.value.length ∧ (nx.status = .error ↔ nx.error ≠ none) :=
  (transform_wf env σ.value.length f p σ m nx m' rfl hσ hm h).1

/-- Witness for C5's amended theorem at `literal("a")` against `"x"`. -/
theorem C5_wellformed_states_witness :
    (⟨(['x'], true), 0, .error, .nullv,
       some ⟨false, "Expected \"a\", but got \"x\""⟩⟩ : Core).index ≤ 1 :=
  (C5_wellformed_states [] 2 (.literal 0 ['a']) (initState ['x'] true) []
    (⟨(['x'], true), 0, .error, .nullv,
       some ⟨false, "Expected \"a\", but got \"x\""⟩⟩ : Core)
    [((0, 0), (⟨(['x'], true), 0, .error, .nullv,
       some ⟨false, "Expected \"a\", but got \"x\""⟩⟩ : Core))]
    ⟨by simp [initState, Core.value], by simp [initState]⟩
    (by intro k e hmem; cases hmem) rfl).1

/-- Claim C6, counterexample: `sequenceOf()` (no children — the source's own
TODO admits the argument list is never validated) makes `parseString("")`
return a state whose status is PARTIAL even though `done = true`. -/
theorem C6_counterexample :
    obsView (parseString [] cexSeqEmpty 5 []) =
      some (some (.part, 0, .arr [], false)) := rfl

/-- Claim C6, amended: for every parser whose `sequenceOf` nodes all have at
least one child (including those reachable through `lazy`), `parseString`
never returns a PARTIAL state. -/
theorem C6_parseString_no_partial (env : Env) (p : P) (f : Nat) (s : Str)
    (σ : Core) (hp : seqNE p) (henv : envNE env)
    (h : parseString env p f s = some (some σ)) : σ.status ≠ .part := by
  unfold parseString at h
  cases ht : transform env f p (initState s true) [] with
  | none => rw [ht] at h; exact absurd h (by simp)
  | some vm =>
      obtain ⟨v, m'⟩ := vm
      rw [ht] at h
      simp only [Option.some.injEq] at h
      rw [h] at ht
      exact (transform_np env henv f p (initState s true) [] σ m' hp rfl
        (by intro k e hmem; cases hmem) ht).1

/-- Witness for C6's amended theorem at `literal("a")` against `"a"`. -/
theorem C6_parseString_no_partial_witness :
    (⟨(['a'], true), 1, .complete, .str "a", none⟩ : Core).status ≠ .part :=
  C6_parseString_no_partial [] (.literal 0 ['a']) 2 ['a']
    (⟨(['a'], true), 1, .complete, .str "a", none⟩ : Core)
    trivial (by intro kq hkq; cases hkq) rfl

/-- Claim C7 (code bug): the repetition loop is supposed to stop when the
inner parser succeeds without advancing, but `zeroOrMore(optional(literal("a")))`
applied to the empty string loops forever: for every fuel bound the
interpreter fails to terminate (the memoized zero-width COMPLETE success is
returned again and again). -/
theorem C7_zeroOrMore_diverges : ∀ f, parseString [] cexZomOpt f [] = none := by
  intro f
  have h := div_transform_none f
  unfold parseString
  unfold divSt at h
  rw [h]

end ParseLib
namespace ParseLib

theorem oneOf_empty_transform (env : Env) (f : Nat) (id : Nat) (σ : Core)
    (m : CacheMap) (hσ : σ.status ≠ .error)
    (hlk : mlookup m (id, σ.index) = none) :
    transform env (f + 1) (.oneOf id []) σ m = some (none, m) := by
  simp only [transform]
  rw [if_neg hσ]
  have hpid : pid (.oneOf id []) = id := rfl
  rw [hpid, hlk]
  rfl

/-- Claim C2: for every parser and every non-error input state,
`Parser.transform` returns the cached entry at `(identity, index)` exactly
when the entry is COMPLETE, or PARTIAL over the identical snapshot (same
value and done flag), or an ERROR that is not an `UNEXPECTED_END_OF_INPUT`
recorded against a non-final snapshot; the reused entry keeps the cached
index, status, result and error but takes the live input (and, in JS, the
live table); otherwise the transform function runs and its produced state
is stored under the original index (`runAndStore`). -/
theorem C2_transform_cache_rules (env : Env) (f : Nat) (p : P) (σ : Core)
    (m : CacheMap) (hσ : σ.status ≠ .error) :
    (∀ e, mlookup m (pid p, σ.index) = some e →
      ((e.status = .complete ∨
        (e.status = .part ∧ e.value = σ.value ∧ e.done = σ.done) ∨
        (e.status = .error ∧ ¬(isEOIerr e.error = true ∧ e.done = false))) →
          transform env (f + 1) p σ m =
            some (some { e with input := σ.input }, m)) ∧
      (¬(e.status = .complete ∨
        (e.status = .part ∧ e.value = σ.value ∧ e.done = σ.done) ∨
        (e.status = .error ∧ ¬(isEOIerr e.error = true ∧ e.done = false))) →
          transform env (f + 1) p σ m = runAndStore env f p σ m)) ∧
    (mlookup m (pid p, σ.index) = none →
      transform env (f + 1) p σ m = runAndStore env f p σ m) := by
  constructor
  · intro e hlk
    constructor
    · intro hre
      simp only [transform]
      rw [if_neg hσ, hlk]
      simp only
      rw [if_pos (show reusable e σ from hre)]
    · intro hnre
      simp only [transform]
      rw [if_neg hσ, hlk]
      simp only
      rw [if_neg (show ¬reusable e σ from hnre)]
      rfl
  · intro hlk
    simp only [transform]
    rw [if_neg hσ, hlk]
    rfl

/-- Witness for C2: a COMPLETE entry cached at `(0, 0)` is reused with the
live input snapshot (value `"x"`), keeping its index, status, result and
error. -/
theorem C2_transform_cache_rules_witness :
    transform [] 4 (.literal 0 ['a']) (initState ['x'] true)
        [((0, 0), (⟨(['q'], true), 1, .complete, .str "q", none⟩ : Core))] =
      some (some (⟨(['x'], true), 1, .complete, .str "q", none⟩ : Core),
        [((0, 0), (⟨(['q'], true), 1, .complete, .str "q", none⟩ : Core))]) :=
  ((C2_transform_cache_rules [] 3 (.literal 0 ['a']) (initState ['x'] true)
    [((0, 0), (⟨(['q'], true), 1, .complete, .str "q", none⟩ : Core))]
    (by decide)).1 _ rfl).1 (Or.inl rfl)

/-- Claim C8: the lazy node's thunk runs exactly once — on the first
invocation — and the produced parser is cached on the node for its whole
lifetime (across parses): after any `n ≥ 1` invocations the thunk has been
called once, the cache holds the first call's parser, and every invocation
used exactly that parser. -/
theorem C8_lazy_thunk_evaluated_once (thunk : Nat → P) (n : Nat) (hn : 1 ≤ n) :
    (lazyRun thunk n ⟨none, 0⟩).2.calls = 1 ∧
    (lazyRun thunk n ⟨none, 0⟩).2.cachedParser = some (thunk 0) ∧
    (lazyRun thunk n ⟨none, 0⟩).1 = List.replicate n (thunk 0) := by
  have hcached : ∀ k p c, lazyRun thunk k ⟨some p, c⟩ =
      (List.replicate k p, ⟨some p, c⟩) := by
    intro k
    induction k with
    | zero => intro p c; rfl
    | succ k ih =>
        intro p c
        simp only [lazyRun, lazyForce]
        rw [ih p c]
        rfl
  obtain ⟨k, rfl⟩ : ∃ k, n = k + 1 := ⟨n - 1, by omega⟩
  have h1 : lazyRun thunk (k + 1) ⟨none, 0⟩ =
      (thunk 0 :: (lazyRun thunk k ⟨some (thunk 0), 1⟩).1,
        (lazyRun thunk k ⟨some (thunk 0), 1⟩).2) := rfl
  rw [h1, hcached k (thunk 0) 1]
  exact ⟨rfl, rfl, rfl⟩

/-- Witness for C8 with a concrete thunk and three invocations. -/
theorem C8_lazy_thunk_evaluated_once_witness :
    (lazyRun (fun _ => P.anyChar 7) 3 ⟨none, 0⟩).2.calls = 1 ∧
    (lazyRun (fun _ => P.anyChar 7) 3 ⟨none, 0⟩).2.cachedParser =
      some (P.anyChar 7) ∧
    (lazyRun (fun _ => P.anyChar 7) 3 ⟨none, 0⟩).1 =
      List.replicate 3 (P.anyChar 7) :=
  C8_lazy_thunk_evaluated_once (fun _ => P.anyChar 7) 3 (by decide)

/-- Claim C10: `oneOf` applied to an empty parser list returns JS `null`
from its transform for any non-error state (nothing validates the list), so
`parseString` on such a parser yields `null` instead of a state record. -/
theorem C10_oneOf_empty_returns_null :
    (∀ env f id σ m, σ.status ≠ .error → mlookup m (id, σ.index) = none →
      transform env (f + 1) (.oneOf id []) σ m = some (none, m)) ∧
    (∀ env id s f, 1 ≤ f →
      parseString env (.oneOf id []) f s = some none) := by
  constructor
  · exact oneOf_empty_transform
  · intro env id s f hf
    obtain ⟨g, rfl⟩ : ∃ g, f = g + 1 := ⟨f - 1, by omega⟩
    unfold parseString
    rw [oneOf_empty_transform env g id (initState s true) []
      (by simp [initState]) rfl]

/-- Witness for C10 at concrete inputs. -/
theorem C10_oneOf_empty_returns_null_witness :
    transform [] 3 (.oneOf 0 []) (initState ['x'] true) [] = some (none, []) ∧
    parseString [] (.oneOf 0 []) 1 ['x'] = some none :=
  ⟨C10_oneOf_empty_returns_null.1 [] 2 0 (initState ['x'] true) []
      (by decide) rfl,
    C10_oneOf_empty_returns_null.2 [] 0 ['x'] 1 (by decide)⟩

end ParseLib
namespace ParseLib

/-- Claim C9: `notFollowedBy(p)` on a non-error state: a COMPLETE child
yields a negative-lookahead-violation ERROR at the entry offset; a child
EOI-over-non-final-input error or a child PARTIAL yields an
`UNEXPECTED_END_OF_INPUT` ERROR at the entry offset; any other child error
yields COMPLETE with null result and the index unchanged. -/
theorem C9_notFollowedBy_cases (env : Env) (f : Nat) (id : Nat) (q : P)
    (σ : Core) (m : CacheMap) (nx : Core) (mq : CacheMap)
    (_hσ : σ.status ≠ .error)
    (h : transform env f q σ m = some (some nx, mq)) :
    (nx.status = .complete →
      stepF env (transform env f) f (.notFollowedBy id q) σ m =
        some (some { σ with
          status := .error
          error := some ⟨false,
            "Expected to not be followed by given parser, but it did match"⟩ }, mq)) ∧
    (eoiNonFinal nx = true →
      stepF env (transform env f) f (.notFollowedBy id q) σ m =
        some (some { σ with
          status := .error
          error := some ⟨true,
            "Expected to not be followed by given parser, but got unexpected end of input"⟩ }, mq)) ∧
    (nx.status = .part →
      stepF env (transform env f) f (.notFollowedBy id q) σ m =
        some (some { σ with
          status := .error
          error := some ⟨true,
            "Expected to not be followed by given parser, but got partial match"⟩ }, mq)) ∧
    (nx.status = .error → eoiNonFinal nx = false →
      stepF env (transform env f) f (.notFollowedBy id q) σ m =
        some (some { σ with
          status := .complete
          result := .nullv }, mq)) := by
  have hd : stepF env (transform env f) f (.notFollowedBy id q) σ m =
      notFollowedByFn (transform env f) q σ m := rfl
  refine ⟨?_, ?_, ?_, ?_⟩
  · intro hc
    rw [hd]
    simp only [notFollowedByFn, h]
    rw [if_pos hc]
  · intro he
    have hcn : ¬(nx.status = .complete) := by
      intro hc
      simp [eoiNonFinal, hc] at he
    rw [hd]
    simp only [notFollowedByFn, h]
    rw [if_neg hcn, if_pos he]
  · intro hp
    have hcn : ¬(nx.status = .complete) := by rw [hp]; simp
    have hen : ¬(eoiNonFinal nx = true) := by simp [eoiNonFinal, hp]
    rw [hd]
    simp only [notFollowedByFn, h]
    rw [if_neg hcn, if_neg hen, if_pos hp]
  · intro herr hnf
    have hcn : ¬(nx.status = .complete) := by rw [herr]; simp
    have hen : ¬(eoiNonFinal nx = true) := by rw [hnf]; simp
    have hpn : ¬(nx.status = .part) := by rw [herr]; simp
    rw [hd]
    simp only [notFollowedByFn, h]
    rw [if_neg hcn, if_neg hen, if_neg hpn]

/-- Witness for C9: `notFollowedBy(literal("ab"))` over the four child
outcomes — success on `"ab"`, end of open input on `""`, partial on `"a"`,
and mismatch on `"xy"`. -/
theorem C9_notFollowedBy_cases_witness :
    (stepF [] (transform [] 5) 5 (.notFollowedBy 9 (.literal 2 ['a', 'b']))
        (initState ['a', 'b'] true) []).map
        (fun vm => vm.1.map fun s => (s.status, s.index, s.error.isSome)) =
      some (some (.error, 0, true)) ∧
    (stepF [] (transform [] 5) 5 (.notFollowedBy 9 (.literal 2 ['a', 'b']))
        (initState [] false) []).map
        (fun vm => vm.1.map fun s => (s.status, s.index, s.error.isSome)) =
      some (some (.error, 0, true)) ∧
    (stepF [] (transform [] 5) 5 (.notFollowedBy 9 (.literal 2 ['a', 'b']))
        (initState ['a'] false) []).map
        (fun vm => vm.1.map fun s => (s.status, s.index, s.error.isSome)) =
      some (some (.error, 0, true)) ∧
    (stepF [] (transform [] 5) 5 (.notFollowedBy 9 (.literal 2 ['a', 'b']))
        (initState ['x', 'y'] true) []).map
        (fun vm => vm.1.map fun s => (s.status, s.index, s.result)) =
      some (some (.complete, 0, .nullv)) := by
  refine ⟨?_, ?_, ?_, ?_⟩
  · rw [(C9_notFollowedBy_cases [] 5 9 (.literal 2 ['a', 'b'])
      (initState ['a', 'b'] true) []
      (⟨(['a', 'b'], true), 2, .complete, .str "ab", none⟩ : Core)
      [((2, 0), (⟨(['a', 'b'], true), 2, .complete, .str "ab", none⟩ : Core))]
      (by decide) rfl).1 rfl]
    rfl
  · rw [(C9_notFollowedBy_cases [] 5 9 (.literal 2 ['a', 'b'])
      (initState [] false) []
      (⟨([], false), 0, .error, .nullv,
        some ⟨true, "Expected \"ab\", but got unexpected end of input"⟩⟩ : Core)
      [((2, 0), (⟨([], false), 0, .error, .nullv,
        some ⟨true, "Expected \"ab\", but got unexpected end of input"⟩⟩ : Core))]
      (by decide) rfl).2.1 rfl]
    rfl
  · rw [(C9_notFollowedBy_cases [] 5 9 (.literal 2 ['a', 'b'])
      (initState ['a'] false) []
      (⟨(['a'], false), 1, .part, .str "a", none⟩ : Core)
      [((2, 0), (⟨(['a'], false), 1, .part, .str "a", none⟩ : Core))]
      (by decide) rfl).2.2.1 rfl]
    rfl
  · rw [(C9_notFollowedBy_cases [] 5 9 (.literal 2 ['a', 'b'])
      (initState ['x', 'y'] true) []
      (⟨(['x', 'y'], true), 0, .error, .nullv,
        some ⟨false, "Expected \"ab\", but got \"xy\""⟩⟩ : Core)
      [((2, 0), (⟨(['x', 'y'], true), 0, .error, .nullv,
        some ⟨false, "Expected \"ab\", but got \"xy\""⟩⟩ : Core))]
      (by decide) rfl).2.2.2 rfl rfl]
    rfl

end ParseLib
namespace ParseLib

/-- Claim C4: `sequenceOf(p₁,…,pₙ)` on a non-error state: when the first
children complete and child `pᵢ` returns an EOI error against a non-final
snapshot, the combinator returns a synthetic PARTIAL anchored at the state
before `pᵢ` ran (so its index is `pᵢ₋₁`'s terminal index), whose result is
the length-`n` array with the completed children's results filled and the
remaining slots undefined; when `pᵢ` returns any other error, that error
state is returned unchanged; and when all children complete, the final
child's state is returned with `result` replaced by the array of all
results. -/
theorem C4_sequenceOf_cases :
    (∀ (env : Env) (f id : Nat) (qs1 : List P) (pi : P) (qs2 : List P)
        (σ0 : Core) (m : CacheMap) (σk : Core) (mk : CacheMap) (rs : List RVal)
        (σe : Core) (me : CacheMap),
      CompletesThrough (transform env f) qs1 σ0 m σk mk rs →
      transform env f pi σk mk = some (some σe, me) →
      eoiNonFinal σe = true →
      stepF env (transform env f) f (.sequenceOf id (qs1 ++ pi :: qs2)) σ0 m =
        some (some { σk with
          status := .part
          result := .arr (fillArr (qs1 ++ pi :: qs2).length rs) }, me)) ∧
    (∀ (env : Env) (f id : Nat) (qs1 : List P) (pi : P) (qs2 : List P)
        (σ0 : Core) (m : CacheMap) (σk : Core) (mk : CacheMap) (rs : List RVal)
        (σe : Core) (me : CacheMap),
      CompletesThrough (transform env f) qs1 σ0 m σk mk rs →
      transform env f pi σk mk = some (some σe, me) →
      σe.status = .error → eoiNonFinal σe = false →
      stepF env (transform env f) f (.sequenceOf id (qs1 ++ pi :: qs2)) σ0 m =
        some (some σe, me)) ∧
    (∀ (env : Env) (f id : Nat) (ps : List P) (σ0 : Core) (m : CacheMap)
        (σn : Core) (mn : CacheMap) (rs : List RVal),
      CompletesThrough (transform env f) ps σ0 m σn mn rs →
      stepF env (transform env f) f (.sequenceOf id ps) σ0 m =
        some (some { σn with result := .arr rs }, mn)) := by
  refine ⟨?_, ?_, ?_⟩
  · intro env f id qs1 pi qs2 σ0 m σk mk rs σe me hct hpi heoi
    have hsg : stepF env (transform env f) f
        (.sequenceOf id (qs1 ++ pi :: qs2)) σ0 m =
        seqGo (transform env f) (qs1 ++ pi :: qs2)
          (qs1 ++ pi :: qs2).length [] σ0 m := rfl
    rw [hsg, seqGo_completes (transform env f) qs1 (pi :: qs2)
      (qs1 ++ pi :: qs2).length [] σ0 m σk mk rs hct]
    simp only [List.nil_append, seqGo, hpi]
    rw [if_pos heoi]
  · intro env f id qs1 pi qs2 σ0 m σk mk rs σe me hct hpi herr hnf
    have hsg : stepF env (transform env f) f
        (.sequenceOf id (qs1 ++ pi :: qs2)) σ0 m =
        seqGo (transform env f) (qs1 ++ pi :: qs2)
          (qs1 ++ pi :: qs2).length [] σ0 m := rfl
    rw [hsg, seqGo_completes (transform env f) qs1 (pi :: qs2)
      (qs1 ++ pi :: qs2).length [] σ0 m σk mk rs hct]
    simp only [List.nil_append, seqGo, hpi]
    rw [if_neg (by rw [hnf]; simp), if_pos herr]
  · intro env f id ps σ0 m σn mn rs hct
    have hsg : stepF env (transform env f) f (.sequenceOf id ps) σ0 m =
        seqGo (transform env f) ps ps.length [] σ0 m := rfl
    have hc := seqGo_completes (transform env f) ps [] ps.length [] σ0 m σn mn
      rs hct
    rw [List.append_nil] at hc
    have hfill : fillArr ps.length rs = rs := by
      have hlen := ct_length (transform env f) ps σ0 m σn mn rs hct
      simp [fillArr, hlen]
    rw [hsg, hc]
    simp only [List.nil_append, seqGo, hfill]

/-- Witness for C4: `sequenceOf(literal("ab"), literal("cd"))` over the open
two-character snapshot gives the synthetic partial; with `literal("xy")` as
second child over the closed input `"abq"` the mismatch error is returned
unchanged; `sequenceOf(literal("ab"))` alone completes with the result
array. -/
theorem C4_sequenceOf_cases_witness :
    stepF [] (transform [] 5) 5
        (.sequenceOf 0 [.literal 1 ['a', 'b'], .literal 2 ['c', 'd']])
        wSeqSt [] =
      some (some { wSeqK with
        status := .part
        result := .arr [.str "ab", .undef] }, wSeqMe) ∧
    stepF [] (transform [] 5) 5
        (.sequenceOf 4 [.literal 1 ['a', 'b'], .literal 2 ['x', 'y']])
        wSeqSt3 [] =
      some (some wSeqE3, wSeqMe3) ∧
    stepF [] (transform [] 5) 5 (.sequenceOf 3 [.literal 1 ['a', 'b']])
        wSeqSt [] =
      some (some { wSeqK with result := .arr [.str "ab"] }, wSeqMk) := by
  refine ⟨?_, ?_, ?_⟩
  · exact C4_sequenceOf_cases.1 [] 5 0 [.literal 1 ['a', 'b']]
      (.literal 2 ['c', 'd']) [] wSeqSt [] wSeqK wSeqMk [.str "ab"] wSeqE wSeqMe
      ⟨wSeqK, wSeqMk, [], rfl, rfl, ⟨rfl, rfl, rfl⟩, rfl⟩ rfl rfl
  · exact C4_sequenceOf_cases.2.1 [] 5 4 [.literal 1 ['a', 'b']]
      (.literal 2 ['x', 'y']) [] wSeqSt3 [] wSeqK3 wSeqMk3 [.str "ab"] wSeqE3
      wSeqMe3 ⟨wSeqK3, wSeqMk3, [], rfl, rfl, ⟨rfl, rfl, rfl⟩, rfl⟩ rfl rfl rfl
  · exact C4_sequenceOf_cases.2.2 [] 5 3 [.literal 1 ['a', 'b']] wSeqSt []
      wSeqK wSeqMk [.str "ab"] ⟨wSeqK, wSeqMk, [], rfl, rfl, ⟨rfl, rfl, rfl⟩, rfl⟩

end ParseLib
